import Mathlib

/-!
Verification development for the ProbKit streaming-sketch library.

The definitions below are a shallow embedding of the C++ sources:
machine 64-bit integers become `Nat` with explicit reduction modulo `2^64`
at every operation that can overflow, byte strings become `List Nat`
(each entry a byte value), and fallible constructors/operations return
`Except errc _` or a `(state, Option Error)` pair that carries the
post-state together with the reported error, mirroring the in-place
mutation of the C++ methods.
-/

set_option autoImplicit false

namespace probkit

/-- `2^64`, the modulus of C++ `std::uint64_t` arithmetic. -/
def U64 : Nat := 2 ^ 64

/-- Reduce a natural number into the `std::uint64_t` range. -/
def u64 (n : Nat) : Nat := n % U64

/-- `std::numeric_limits<std::uint64_t>::max()`. -/
def U64MAX : Nat := U64 - 1

/-- The error-kind taxonomy from `error.hpp` (`enum class errc`). -/
inductive errc where
  | invalid_argument
  | parse_error
  | io_error
  | out_of_memory
  | timeout
  | canceled
  | overflow
  | internal_error
  | not_supported
deriving DecidableEq, Repr

/-- `probkit::error`: an error code plus human-readable context. -/
structure Error where
  code : errc
  context : String
deriving DecidableEq, Repr

/-- `hashing::HashKind` from `hash.hpp`. -/
inductive HashKind where
  | wyhash
  | xxhash
deriving DecidableEq, Repr

/-- `hashing::HashConfig` from `hash.hpp`; fields are `u64` values. -/
structure HashConfig where
  kind : HashKind := .wyhash
  seed : Nat := 0
  thread_salt : Nat := 0
deriving DecidableEq, Repr

namespace hashing

/-- The 64-bit golden-ratio constant `0x9E3779B97F4A7C15`. -/
def kGolden : Nat := 0x9E3779B97F4A7C15

def kMul1 : Nat := 0xBF58476D1CE4E5B9
def kMul2 : Nat := 0x94D049BB133111EB

def kWyP0 : Nat := 0xA0761D6478BD642F
def kWyP1 : Nat := 0xE7037ED1A0B428DB
def kWyP2 : Nat := 0x8EBC6AF09C88C6E3
def kWyP3 : Nat := 0x589965CC75374CC3
def kWyP4 : Nat := 0x1D8E4E27C47D124F

def kXxPrime1 : Nat := 11400714785074694791
def kXxPrime2 : Nat := 14029467366897019727
def kXxPrime3 : Nat := 1609587929392839161
def kXxPrime4 : Nat := 9650029242287828579
def kXxPrime5 : Nat := 2870177450012600261

/-- 64-bit rotate left by a constant (`rotl_const` in `hash.cpp`). -/
def rotl (value rot : Nat) : Nat :=
  let r := rot % 64
  u64 (value <<< r) ||| (value >>> ((64 - r) % 64))

/-- `splitmix64` from `hash.cpp`. -/
def splitmix64 (value0 : Nat) : Nat :=
  let v1 := u64 (value0 + kGolden)
  let v2 := u64 ((v1 ^^^ (v1 >>> 30)) * kMul1)
  let v3 := u64 ((v2 ^^^ (v2 >>> 27)) * kMul2)
  v3 ^^^ (v3 >>> 31)

/-- `derive_thread_salt(base, thread_index)` from `hash.cpp`. -/
def derive_thread_salt (base thread_index : Nat) : Nat :=
  splitmix64 (base ^^^ u64 (thread_index * kGolden))

/-- `load_u64_le`: little-endian load of up to 8 bytes at `off`. -/
def load_u64_le (s : List Nat) (off : Nat) : Nat :=
  let rem := s.length - off
  let lim := min rem 8
  (List.range lim).foldl (fun v i => v ||| (s.getD (off + i) 0 <<< (8 * i))) 0

/-- `load_u32_le`: little-endian load of up to 4 bytes at `off`. -/
def load_u32_le (s : List Nat) (off : Nat) : Nat :=
  let rem := s.length - off
  let lim := min rem 4
  (List.range lim).foldl (fun v i => v ||| (s.getD (off + i) 0 <<< (8 * i))) 0

/-- `wymum`: the 128-bit folded multiply (low half XOR high half). -/
def wymum (a b : Nat) : Nat :=
  let r := a * b
  let low_bits := u64 r
  let high_bits := u64 (r >>> 64)
  low_bits ^^^ high_bits

/-- The 16-byte main loop of `wyhash_impl`; returns the final `(i, h)`.
The structural `fuel` argument (instantiated with `s.length`, which always
suffices since each iteration advances `i` by 16) only bounds the number
of iterations of the C++ `while` loop. -/
def wyhashLoop (s : List Nat) : Nat → Nat → Nat → Nat × Nat
  | 0, i, h => (i, h)
  | fuel + 1, i, h =>
    if i + 16 ≤ s.length then
      let left_chunk := load_u64_le s i ^^^ kWyP1
      let right_chunk := load_u64_le s (i + 8) ^^^ kWyP2
      wyhashLoop s fuel (i + 16) (wymum (h ^^^ left_chunk) kWyP0 ^^^ wymum right_chunk kWyP3)
    else
      (i, h)

/-- The 1..3-byte tail accumulator of `wyhash_impl`. -/
def wyTailBytes (s : List Nat) (i rem : Nat) : Nat :=
  (List.range rem).foldl (fun a j => a ||| (s.getD (i + j) 0 <<< (8 * j))) 0

/-- `wyhash_impl` from `hash.cpp`. -/
def wyhash_impl (s : List Nat) (seed : Nat) : Nat :=
  let n := s.length
  let secret := kWyP0 ^^^ kWyP1
  let h0 := seed ^^^ u64 (secret + n)
  let r1 := wyhashLoop s n 0 h0
  let i1 := r1.1
  let h1 := r1.2
  let r2 :=
    if i1 + 8 ≤ n then
      (i1 + 8, wymum (h1 ^^^ (load_u64_le s i1 ^^^ kWyP1)) kWyP4)
    else
      (i1, h1)
  let i2 := r2.1
  let h2 := r2.2
  let rem := n - i2
  let h3 :=
    if rem ≥ 4 then
      let a := load_u32_le s i2 ^^^ kWyP2
      let b := load_u32_le s (i2 + rem - 4) ^^^ kWyP3
      wymum (h2 ^^^ a) kWyP0 ^^^ b
    else if rem > 0 then
      let a := wyTailBytes s i2 rem ^^^ kWyP2
      wymum (h2 ^^^ a) kWyP0
    else
      h2
  wymum (h3 ^^^ kWyP1) kWyP4

/-- One 32-byte round of the xxhash accumulators. -/
def xxRound (acc lane : Nat) : Nat :=
  u64 (rotl (u64 (acc + u64 (lane * kXxPrime2))) 31 * kXxPrime1)

/-- The 32-byte main loop of `xxhash64_impl` (runs while `i ≤ n - 32`);
`fuel` bounds the iterations as in `wyhashLoop`. -/
def xxLoop (s : List Nat) : Nat → Nat → Nat → Nat → Nat → Nat → Nat × Nat × Nat × Nat × Nat
  | 0, i, acc1, acc2, acc3, acc4 => (i, acc1, acc2, acc3, acc4)
  | fuel + 1, i, acc1, acc2, acc3, acc4 =>
    if i + 32 ≤ s.length then
      xxLoop s fuel (i + 32)
        (xxRound acc1 (load_u64_le s i))
        (xxRound acc2 (load_u64_le s (i + 8)))
        (xxRound acc3 (load_u64_le s (i + 16)))
        (xxRound acc4 (load_u64_le s (i + 24)))
    else
      (i, acc1, acc2, acc3, acc4)

/-- The per-accumulator merge step of `xxhash64_impl`. -/
def xxMergeAcc (h acc : Nat) : Nat :=
  let a := u64 (rotl (u64 (acc * kXxPrime2)) 31 * kXxPrime1)
  u64 ((h ^^^ a) * kXxPrime1 + kXxPrime4)

/-- The 8-byte tail loop of `xxhash64_impl`; `fuel` as in `wyhashLoop`. -/
def xxTail8 (s : List Nat) : Nat → Nat → Nat → Nat × Nat
  | 0, i, h => (i, h)
  | fuel + 1, i, h =>
    if i + 8 ≤ s.length then
      let k := u64 (load_u64_le s i * kXxPrime2)
      xxTail8 s fuel (i + 8)
        (u64 (rotl (h ^^^ u64 (rotl k 31 * kXxPrime1)) 27 * kXxPrime1 + kXxPrime4))
    else
      (i, h)

/-- The 1-byte tail loop of `xxhash64_impl`; `fuel` as in `wyhashLoop`. -/
def xxTail1 (s : List Nat) : Nat → Nat → Nat → Nat
  | 0, _, h => h
  | fuel + 1, i, h =>
    if i < s.length then
      xxTail1 s fuel (i + 1) (u64 (rotl (h ^^^ u64 (s.getD i 0 * kXxPrime5)) 11 * kXxPrime1))
    else
      h

/-- `xxhash64_impl` from `hash.cpp`. -/
def xxhash64_impl (s : List Nat) (seed : Nat) : Nat :=
  let n := s.length
  let r0 :=
    if n ≥ 32 then
      let acc1 := u64 (seed + kXxPrime1 + kXxPrime2)
      let acc2 := u64 (seed + kXxPrime2)
      let acc3 := u64 (seed + 0)
      let acc4 := u64 (seed + U64 - kXxPrime1)
      let r := xxLoop s n 0 acc1 acc2 acc3 acc4
      let a1 := r.2.1
      let a2 := r.2.2.1
      let a3 := r.2.2.2.1
      let a4 := r.2.2.2.2
      let h := u64 (u64 (rotl a1 1 + rotl a2 7) + u64 (rotl a3 12 + rotl a4 18))
      let h := xxMergeAcc h a1
      let h := xxMergeAcc h a2
      let h := xxMergeAcc h a3
      let h := xxMergeAcc h a4
      (r.1, h)
    else
      (0, u64 (seed + kXxPrime5))
  let i0 := r0.1
  let h0 := r0.2
  let h1 := u64 (h0 + n)
  let r2 := xxTail8 s n i0 h1
  let i2 := r2.1
  let h2 := r2.2
  let r3 :=
    if i2 + 4 ≤ n then
      (i2 + 4, u64 (rotl (h2 ^^^ u64 (load_u32_le s i2 * kXxPrime1)) 23 * kXxPrime2 + kXxPrime3))
    else
      (i2, h2)
  let i3 := r3.1
  let h3 := r3.2
  let h4 := xxTail1 s n i3 h3
  let h5 := u64 ((h4 ^^^ (h4 >>> 33)) * kXxPrime2)
  let h6 := u64 ((h5 ^^^ (h5 >>> 29)) * kXxPrime3)
  h6 ^^^ (h6 >>> 32)

/-- `hash64(input, cfg)` from `hash.cpp`: the effective seed is
`cfg.seed XOR cfg.thread_salt`, then dispatch on the hash kind. -/
def hash64 (input : List Nat) (cfg : HashConfig) : Nat :=
  let seed := cfg.seed ^^^ cfg.thread_salt
  match cfg.kind with
  | .wyhash => wyhash_impl input seed
  | .xxhash => xxhash64_impl input seed

end hashing

open hashing

namespace bloom

/-- `bloom::filter` from `bloom.hpp`: bit storage as 64-bit words. -/
structure filter where
  bits : List Nat
  m_bits : Nat
  k : Nat
  hash_cfg : HashConfig
deriving DecidableEq, Repr

/-- `kDefaultK` from `bloom.hpp`. -/
def kDefaultK : Nat := 7

/-- `kMinBytes` from `bloom.cpp` (at least one 64-bit word). -/
def kMinBytes : Nat := 8

/-- `kSalt2` from `bloom.hpp`. -/
def kSalt2 : Nat := 0x9E3779B97F4A7C15

/-- `filter::make_by_mem(bytes, h)` from `bloom.cpp`. -/
def make_by_mem (bytes : Nat) (h : HashConfig) : Except Error filter :=
  if bytes < kMinBytes then
    .error ⟨.invalid_argument, "mem too small"⟩
  else
    let words := bytes / 8
    if words = 0 then
      .error ⟨.invalid_argument, "mem not aligned"⟩
    else
      .ok ⟨List.replicate words 0, words * 64, kDefaultK, h⟩

/-- `filter::index_word(bit)`. -/
def index_word (bit : Nat) : Nat := bit >>> 6

/-- `filter::index_mask(bit)`. -/
def index_mask (bit : Nat) : Nat := 1 <<< (bit &&& 63)

/-- `filter::mod_bit(v)`: reduce a `u64` value into the bit range. -/
def mod_bit (f : filter) (v : Nat) : Nat := v % f.m_bits

/-- `filter::second_seed()`. -/
def second_seed (cfg : HashConfig) : Nat := cfg.seed ^^^ kSalt2

/-- The `i`-th probed bit of `x`: `(h1 + i*h2) mod 2^64 mod m`
(the C++ sum `h1 + i*h2` is `u64` arithmetic). -/
def probe_bit (f : filter) (h1 h2 i : Nat) : Nat :=
  mod_bit f (u64 (h1 + i * h2))

/-- Set one bit in the word array. -/
def set_bit (ws : List Nat) (bit : Nat) : List Nat :=
  ws.set (index_word bit) (ws.getD (index_word bit) 0 ||| index_mask bit)

/-- Test one bit of the word array (the `(word & mask) != 0` check of
`might_contain`). -/
def get_bit (ws : List Nat) (bit : Nat) : Bool :=
  (ws.getD (index_word bit) 0 &&& index_mask bit) != 0

/-- `filter::add(x)` from `bloom.cpp`: double hashing, set `k` bits. -/
def add (f : filter) (x : List Nat) : filter :=
  let h1 := hash64 x f.hash_cfg
  let h2 := hash64 x { f.hash_cfg with seed := second_seed f.hash_cfg } ||| 1
  { f with bits := (List.range f.k).foldl (fun ws i => set_bit ws (probe_bit f h1 h2 i)) f.bits }

/-- `filter::might_contain(x)` from `bloom.cpp`. -/
def might_contain (f : filter) (x : List Nat) : Bool :=
  let h1 := hash64 x f.hash_cfg
  let h2 := hash64 x { f.hash_cfg with seed := second_seed f.hash_cfg } ||| 1
  (List.range f.k).all fun i => get_bit f.bits (probe_bit f h1 h2 i)

/-- Hash-parameter equality checked by `filter::merge`. -/
def hash_same (a b : HashConfig) : Bool :=
  a.kind = b.kind ∧ a.seed = b.seed ∧ a.thread_salt = b.thread_salt

/-- `filter::merge(other)` from `bloom.cpp`: returns the post-state and
the reported error (`none` on success). -/
def merge (f other : filter) : filter × Option Error :=
  if f.m_bits ≠ other.m_bits ∨ f.k ≠ other.k ∨ ¬ hash_same f.hash_cfg other.hash_cfg then
    (f, some ⟨.invalid_argument, "incompatible bloom merge"⟩)
  else
    ({ f with bits := ((List.range f.bits.length).map
        fun i => f.bits.getD i 0 ||| other.bits.getD i 0) }, none)

end bloom

namespace hll

/-- `hll::sketch` from `hll.hpp`. -/
structure sketch where
  p : Nat
  hash_cfg : HashConfig
  registers : List Nat
deriving Repr

/-- `sketch::make_by_precision(p, h)` from `hll.cpp`. -/
def make_by_precision (p : Nat) (h : HashConfig) : Except Error sketch :=
  if p < 4 ∨ p > 20 then
    .error ⟨.invalid_argument, "precision out of range"⟩
  else
    .ok ⟨p, h, List.replicate (2 ^ p) 0⟩

/-- `leading_zeroes_64(v)`: count of leading zero bits of a `u64` value
(`64 - bit-size`, which is `64` at zero, matching the C++ special case). -/
def leading_zeroes_64 (v : Nat) : Nat := 64 - Nat.size v

/-- `rho_from_hash(h, p)` from `hll.cpp`. -/
def rho_from_hash (h p : Nat) : Nat :=
  let lz := leading_zeroes_64 (u64 (h <<< p) ||| (1 <<< (p - 1)))
  let rank := lz + 1
  let max_rho := 64 - p + 1
  if rank > max_rho then max_rho else rank

/-- `sketch::add(x)` from `hll.cpp`. -/
def add (s : sketch) (x : List Nat) : sketch :=
  let h := hash64 x s.hash_cfg
  let mval := 2 ^ s.p
  let idx := (h >>> (64 - s.p)) &&& (mval - 1)
  let r := rho_from_hash h s.p
  { s with registers := s.registers.set idx (max r (s.registers.getD idx 0)) }

/-- `sketch::same_params(other)` from `hll.hpp`. -/
def same_params (a b : sketch) : Bool :=
  a.p = b.p ∧ a.hash_cfg.kind = b.hash_cfg.kind ∧ a.hash_cfg.seed = b.hash_cfg.seed ∧
    a.hash_cfg.thread_salt = b.hash_cfg.thread_salt

/-- `sketch::merge(other)` from `hll.cpp`: post-state plus error. -/
def merge (s other : sketch) : sketch × Option Error :=
  if ¬ same_params s other then
    (s, some ⟨.invalid_argument, "incompatible hll merge"⟩)
  else
    ({ s with registers := ((List.range s.registers.length).map
        fun i => max (other.registers.getD i 0) (s.registers.getD i 0)) }, none)

end hll

namespace cms

/-- `cms::sketch` from `cms.hpp` (the optional top-K candidate vectors are
always empty in the current code and carry no behavior). -/
structure sketch where
  depth : Nat
  width : Nat
  hash_cfg : HashConfig
  table : List Nat
deriving Repr

/-- The zero-initialized sketch produced by `sketch::make_by_eps_delta`
for dimensions `(d, w)`.  The dimensions themselves are computed in the
C++ from `(eps, delta)` with floating-point `ceil(e/eps)` and
`ceil(ln(1/delta))`; whenever the constructor succeeds both are `≥ 1`. -/
def mk_sketch (d w : Nat) (h : HashConfig) : sketch :=
  ⟨d, w, h, List.replicate (d * w) 0⟩

/-- `hash_row(x, base, row)` from `cms.cpp`: per-row seed variation. -/
def hash_row (x : List Nat) (base : HashConfig) (row : Nat) : Nat :=
  hash64 x { base with seed := base.seed ^^^ u64 (hashing.kGolden * (row + 1)) }

/-- Column of `x` in row `r`. -/
def col (s : sketch) (x : List Nat) (r : Nat) : Nat :=
  hash_row x s.hash_cfg r % s.width

/-- Flat table index of `x` in row `r`. -/
def cell_index (s : sketch) (x : List Nat) (r : Nat) : Nat :=
  r * s.width + col s x r

/-- `sketch::inc(x, c)` from `cms.cpp` (`u64` saturating at wrap-around
modulo `2^64` like the C++ `+=`). -/
def inc (s : sketch) (x : List Nat) (c : Nat) : sketch :=
  { s with table := ((List.range s.depth).foldl
      (fun t r => t.set (cell_index s x r) (u64 (t.getD (cell_index s x r) 0 + c)))
      s.table) }

/-- `sketch::estimate(x)` from `cms.cpp`. -/
def estimate (s : sketch) (x : List Nat) : Nat :=
  let est := (List.range s.depth).foldl
    (fun est r => min est (s.table.getD (cell_index s x r) 0)) U64MAX
  if est = U64MAX then 0 else est

/-- `sketch::same_params(other)` from `cms.hpp`. -/
def same_params (a b : sketch) : Bool :=
  a.depth = b.depth ∧ a.width = b.width ∧ a.hash_cfg.kind = b.hash_cfg.kind ∧
    a.hash_cfg.seed = b.hash_cfg.seed ∧ a.hash_cfg.thread_salt = b.hash_cfg.thread_salt

/-- `sketch::merge(other)` from `cms.cpp`: post-state plus error. -/
def merge (s other : sketch) : sketch × Option Error :=
  if ¬ same_params s other then
    (s, some ⟨.invalid_argument, "incompatible cms merge"⟩)
  else
    ({ s with table := ((List.range s.table.length).map
        fun i => u64 (s.table.getD i 0 + other.table.getD i 0)) }, none)

/-- The `d` row cells addressed by `x`'s row hashes, as read by
`estimate`. -/
def row_values (s : sketch) (x : List Nat) : List Nat :=
  (List.range s.depth).map fun r => s.table.getD (cell_index s x r) 0

/-- The flat table cells that an increment of key `x` touches: one cell
per row `r`, at column `hash_row(x, cfg, r) mod w`. -/
def touched_cells (d w : Nat) (cfg : HashConfig) (x : List Nat) : List Nat :=
  (List.range d).map fun r => r * w + hash_row x cfg r % w

/-- A history of operations over identically parameterized CMS sketches:
construction, increments, and in-process merges. -/
inductive Trace (d w : Nat) (cfg : HashConfig) where
  | mk : Trace d w cfg
  | inc : Trace d w cfg → List Nat → Nat → Trace d w cfg
  | merge : Trace d w cfg → Trace d w cfg → Trace d w cfg

/-- Run a trace to the sketch state it produces. -/
def Trace.run {d w : Nat} {cfg : HashConfig} : Trace d w cfg → sketch
  | .mk => mk_sketch d w cfg
  | .inc t x c => cms.inc t.run x c
  | .merge a b => (cms.merge a.run b.run).1

/-- The total of all increment amounts in a trace. -/
def Trace.total {d w : Nat} {cfg : HashConfig} : Trace d w cfg → Nat
  | .mk => 0
  | .inc t _ c => t.total + c
  | .merge a b => a.total + b.total

/-- The true accumulated count of key `x` over a trace. -/
def Trace.count {d w : Nat} {cfg : HashConfig} (x : List Nat) : Trace d w cfg → Nat
  | .mk => 0
  | .inc t y c => t.count x + (if y = x then c else 0)
  | .merge a b => a.count x + b.count x

/-- The exact (unwrapped, arbitrary-precision) counter table a trace
would produce: what the `u64` cells hold when no counter overflows. -/
def Trace.exact {d w : Nat} {cfg : HashConfig} : Trace d w cfg → Nat → Nat
  | .mk => fun _ => 0
  | .inc t y c => fun idx =>
      t.exact idx + (if idx ∈ touched_cells d w cfg y then c else 0)
  | .merge a b => fun idx => a.exact idx + b.exact idx

end cms

namespace cli.util

/-- `spsc_ring<T>` from `spsc_ring.hpp`: capacity, backing storage and the
two indices (already reduced modulo the capacity, as stored by the C++). -/
structure spsc_ring (α : Type) where
  capacity : Nat
  data : List α
  head : Nat
  tail : Nat
deriving Repr

/-- A freshly constructed ring: default-initialized storage, indices `0`. -/
def spsc_ring.mk_ring (α : Type) [Inhabited α] (capacity : Nat) : spsc_ring α :=
  ⟨capacity, List.replicate capacity default, 0, 0⟩

/-- `spsc_ring::push(value)`: returns whether the push was accepted,
together with the post-state. -/
def spsc_ring.push {α : Type} (s : spsc_ring α) (value : α) : Bool × spsc_ring α :=
  let next := (s.head + 1) % s.capacity
  if next = s.tail then
    (false, s)
  else
    (true, { s with data := s.data.set s.head value, head := next })

/-- `spsc_ring::pop(out)`: returns the popped value (`none` when empty)
together with the post-state. -/
def spsc_ring.pop {α : Type} [Inhabited α] (s : spsc_ring α) : Option α × spsc_ring α :=
  if s.tail = s.head then
    (none, s)
  else
    (some (s.data.getD s.tail default), { s with tail := (s.tail + 1) % s.capacity })

/-- One operation by the producer (`push v`) or the consumer (`pop`). -/
inductive RingOp (α : Type) where
  | push (v : α)
  | pop

/-- Well-formedness maintained by the ring: stored indices in range and
the storage at its constructed capacity. -/
def ring_wf {α : Type} (s : spsc_ring α) : Prop :=
  s.head < s.capacity ∧ s.tail < s.capacity ∧ s.data.length = s.capacity

/-- The number of queued items (distance from `tail` to `head` mod `C`). -/
def ring_size {α : Type} (s : spsc_ring α) : Nat :=
  (s.capacity + s.head - s.tail) % s.capacity

/-- The queued items in order, from `tail` to `head`. -/
def contents {α : Type} [Inhabited α] (s : spsc_ring α) : List α :=
  (List.range (ring_size s)).map fun i => s.data.getD ((s.tail + i) % s.capacity) default

/-- Run an operation sequence; returns the final ring, the accepted
pushed values in order, and the popped values in order. -/
def runOps {α : Type} [Inhabited α] : spsc_ring α → List (RingOp α) → spsc_ring α × List α × List α
  | s, [] => (s, [], [])
  | s, .push v :: ops =>
    let r := s.push v
    let rest := runOps r.2 ops
    (rest.1, (if r.1 then [v] else []) ++ rest.2.1, rest.2.2)
  | s, .pop :: ops =>
    let r := s.pop
    let rest := runOps r.2 ops
    (rest.1, rest.2.1, (match r.1 with | some v => [v] | none => []) ++ rest.2.2)

namespace timeutil

/-- One time unit accepted by `parse_duration`. -/
inductive DurUnit where
  | ms
  | s
  | m
  | h
deriving DecidableEq, Repr

/-- The unit suffix as written in the input. -/
def DurUnit.chars : DurUnit → List Char
  | .ms => ['m', 's']
  | .s => ['s']
  | .m => ['m']
  | .h => ['h']

/-- The nanoseconds-per-unit factor applied by the `std::chrono` casts. -/
def DurUnit.mult : DurUnit → Nat
  | .ms => 1000000
  | .s => 1000000000
  | .m => 60000000000
  | .h => 3600000000000

/-- The digit-scanning loop of `parse_duration`: consume leading decimal
digits into `value`, rejecting on `u64` overflow; returns the accumulated
value and the unconsumed remainder. -/
def scanDigits : List Char → Nat → Option (Nat × List Char)
  | [], value => some (value, [])
  | ch :: rest, value =>
    if '0' ≤ ch ∧ ch ≤ '9' then
      if value > (U64MAX - (ch.toNat - '0'.toNat)) / 10 then
        none
      else
        scanDigits rest (value * 10 + (ch.toNat - '0'.toNat))
    else
      some (value, ch :: rest)

/-- The numeric value of a decimal digit string (as accumulated by the
scanning loop of `parse_duration`). -/
def digitsVal (ds : List Char) : Nat :=
  ds.foldl (fun v c => v * 10 + (c.toNat - '0'.toNat)) 0

/-- The modular narrowing of a `u64` value into the signed 64-bit rep of
a `std::chrono` duration (`uint64_t → int64_t`, defined behavior). -/
def toInt64 (n : Nat) : Int :=
  if n % U64 < 2 ^ 63 then Int.ofNat (n % U64) else Int.ofNat (n % U64) - Int.ofNat U64

/-- `timeutil::parse_duration(s)` from the time utilities header. The
output `std::chrono::nanoseconds` is int64-backed: constructing the unit
duration narrows the parsed `u64` value into the signed 64-bit rep
(`toInt64`, a defined modular conversion), and the implicit conversion to
nanoseconds multiplies the rep by the unit factor — modeled here as exact
integer multiplication, which agrees with the C++ exactly when the
product lies in the int64 range (outside it, the C++ multiply overflows a
signed integer). -/
def parse_duration (s : List Char) : Option Int :=
  if s.isEmpty then
    none
  else
    match scanDigits s 0 with
    | none => none
    | some (value, rest) =>
      if rest.length = s.length then
        none
      else if rest.isEmpty then
        none
      else if rest = ['m', 's'] then
        some (toInt64 value * (DurUnit.mult .ms : Int))
      else if rest = ['s'] then
        some (toInt64 value * (DurUnit.mult .s : Int))
      else if rest = ['m'] then
        some (toInt64 value * (DurUnit.mult .m : Int))
      else if rest = ['h'] then
        some (toInt64 value * (DurUnit.mult .h : Int))
      else
        none

end timeutil

end cli.util

namespace bloom

/-- Well-formedness established by both Bloom constructors: the bit count
matches the word storage and is positive. -/
def wf (f : filter) : Prop :=
  f.m_bits = 64 * f.bits.length ∧ 0 < f.bits.length

end bloom

namespace hll

/-- Reachable HLL sketch states: a constructor output followed by any
sequence of `add` and `merge` operations (a rejected merge returns the
receiver unchanged, so including it unconditionally is sound). -/
inductive Reachable : sketch → Prop where
  | make {p : Nat} {cfg : HashConfig} {s : sketch}
      (h : make_by_precision p cfg = .ok s) : Reachable s
  | add {s : sketch} (hs : Reachable s) (x : List Nat) : Reachable (add s x)
  | merge {s o : sketch} (hs : Reachable s) (ho : Reachable o) : Reachable (merge s o).1

end hll

/-! ## Generic helper lemmas -/

lemma getD_set_self {α : Type} {ws : List α} {i : Nat} (h : i < ws.length) (w d : α) :
    (ws.set i w).getD i d = w := by
  rw [List.getD_eq_getElem?_getD, List.getElem?_set_self (by simpa using h)]
  rfl

lemma getD_set_ne {α : Type} {ws : List α} {i j : Nat} (h : i ≠ j) (w d : α) :
    (ws.set i w).getD j d = ws.getD j d := by
  rw [List.getD_eq_getElem?_getD, List.getElem?_set_ne h, ← List.getD_eq_getElem?_getD]

lemma land_lor_self (a b : Nat) : a &&& (a ||| b) = a := by
  refine Nat.eq_of_testBit_eq fun i => ?_
  simp only [Nat.testBit_land, Nat.testBit_lor]
  cases a.testBit i <;> simp

lemma le_lor_left (a b : Nat) : a ≤ a ||| b := by
  conv_lhs => rw [← land_lor_self a b]
  exact Nat.and_le_right

lemma xor_lt_u64 {a b : Nat} (ha : a < U64) (hb : b < U64) : a ^^^ b < U64 :=
  Nat.bitwise_lt ha hb

lemma u64_lt (n : Nat) : u64 n < U64 :=
  Nat.mod_lt _ (by simp [U64])

/-! ## Range of the hash functions -/

namespace hashing

lemma wymum_lt (a b : Nat) : wymum a b < U64 :=
  xor_lt_u64 (u64_lt _) (u64_lt _)

lemma wyhash_impl_lt (s : List Nat) (seed : Nat) : wyhash_impl s seed < U64 :=
  wymum_lt _ _

lemma shiftRight_le_self (n k : Nat) : n >>> k ≤ n := by
  rw [Nat.shiftRight_eq_div_pow]
  exact Nat.div_le_self n (2 ^ k)

lemma xxhash64_impl_lt (s : List Nat) (seed : Nat) : xxhash64_impl s seed < U64 :=
  xor_lt_u64 (u64_lt _) (Nat.lt_of_le_of_lt (shiftRight_le_self _ _) (u64_lt _))

/-- Every `hash64` value fits in 64 bits. -/
lemma hash64_lt (x : List Nat) (cfg : HashConfig) : hash64 x cfg < U64 := by
  rcases cfg with ⟨k, se, ts⟩
  cases k
  · exact wyhash_impl_lt x (se ^^^ ts)
  · exact xxhash64_impl_lt x (se ^^^ ts)

end hashing

/-! ## Bit-level helpers for the Bloom filter -/

namespace bloom

lemma index_mask_eq (bit : Nat) : index_mask bit = 2 ^ (bit &&& 63) := by
  rw [index_mask, Nat.shiftLeft_eq, one_mul]

lemma get_bit_eq_testBit (ws : List Nat) (bit : Nat) :
    get_bit ws bit = (ws.getD (index_word bit) 0).testBit (bit &&& 63) := by
  rw [get_bit, index_mask_eq, Nat.and_two_pow]
  cases h : (ws.getD (index_word bit) 0).testBit (bit &&& 63) <;>
    simp [h, Nat.pos_iff_ne_zero, Nat.pos_pow_of_pos]

lemma length_set_bit (ws : List Nat) (bit : Nat) : (set_bit ws bit).length = ws.length := by
  rw [set_bit, List.length_set]

lemma get_bit_set_bit_self {ws : List Nat} {bit : Nat} (h : index_word bit < ws.length) :
    get_bit (set_bit ws bit) bit = true := by
  rw [get_bit_eq_testBit, set_bit, getD_set_self h, index_mask_eq, Nat.testBit_lor,
    Nat.testBit_two_pow_self, Bool.or_true]

lemma get_bit_set_bit_mono {ws : List Nat} {bit : Nat} (hget : get_bit ws bit = true)
    (bit' : Nat) : get_bit (set_bit ws bit') bit = true := by
  by_cases hlen : index_word bit' < ws.length
  · by_cases hij : index_word bit' = index_word bit
    · rw [get_bit_eq_testBit, set_bit, hij, getD_set_self (hij ▸ hlen), index_mask_eq,
        Nat.testBit_lor]
      rw [get_bit_eq_testBit] at hget
      rw [hget, Bool.true_or]
    · rwa [get_bit_eq_testBit, set_bit, getD_set_ne hij, ← get_bit_eq_testBit]
  · rwa [set_bit, List.set_eq_of_length_le (by omega)]

lemma get_bit_fold_set_mono {g : Nat → Nat} {ws : List Nat} {bit : Nat}
    (hget : get_bit ws bit = true) (l : List Nat) :
    get_bit (l.foldl (fun ws i => set_bit ws (g i)) ws) bit = true := by
  induction l generalizing ws with
  | nil => exact hget
  | cons a l ih => exact ih (get_bit_set_bit_mono hget (g a))

lemma length_fold_set {g : Nat → Nat} (l : List Nat) (ws : List Nat) :
    (l.foldl (fun ws i => set_bit ws (g i)) ws).length = ws.length := by
  induction l generalizing ws with
  | nil => rfl
  | cons a l ih => rw [List.foldl_cons, ih, length_set_bit]

lemma get_bit_fold_set_all {g : Nat → Nat} {ws : List Nat} {l : List Nat}
    (hlt : ∀ i ∈ l, index_word (g i) < ws.length) :
    ∀ i ∈ l, get_bit (l.foldl (fun ws i => set_bit ws (g i)) ws) (g i) = true := by
  induction l generalizing ws with
  | nil => intro i hi; cases hi
  | cons a l ih =>
    intro i hi
    rw [List.foldl_cons]
    rcases List.mem_cons.mp hi with rfl | hi
    · exact get_bit_fold_set_mono (get_bit_set_bit_self (hlt i (List.mem_cons_self _ _))) l
    · refine ih (fun j hj => ?_) i hi
      rw [length_set_bit]
      exact hlt j (List.mem_cons_of_mem _ hj)

lemma probe_index_word_lt {f : filter} (hwf : wf f) (h1 h2 i : Nat) :
    index_word (probe_bit f h1 h2 i) < f.bits.length := by
  have hm : 0 < f.m_bits := by
    rcases hwf with ⟨h1', h2'⟩
    omega
  have hb : probe_bit f h1 h2 i < f.m_bits := Nat.mod_lt _ hm
  rcases hwf with ⟨hlen, _⟩
  rw [index_word, Nat.shiftRight_eq_div_pow]
  omega

lemma add_fields (f : filter) (x : List Nat) :
    (add f x).m_bits = f.m_bits ∧ (add f x).k = f.k ∧ (add f x).hash_cfg = f.hash_cfg ∧
      (add f x).bits.length = f.bits.length := by
  refine ⟨rfl, rfl, rfl, ?_⟩
  exact length_fold_set _ _

lemma wf_add {f : filter} (hwf : wf f) (x : List Nat) : wf (add f x) := by
  rcases hwf with ⟨hm, hpos⟩
  rcases add_fields f x with ⟨h1, _, _, h4⟩
  exact ⟨by rw [h1, h4, hm], by rw [h4]; exact hpos⟩

lemma might_contain_add_self {f : filter} (hwf : wf f) (x : List Nat) :
    might_contain (add f x) x = true := by
  rw [might_contain, List.all_eq_true]
  intro i hi
  rcases List.mem_range.mp hi with _
  have hk : (add f x).k = f.k := rfl
  have hcfg : (add f x).hash_cfg = f.hash_cfg := rfl
  have hprobe : ∀ j, probe_bit (add f x) (hashing.hash64 x f.hash_cfg)
      (hashing.hash64 x { f.hash_cfg with seed := second_seed f.hash_cfg } ||| 1) j =
      probe_bit f (hashing.hash64 x f.hash_cfg)
      (hashing.hash64 x { f.hash_cfg with seed := second_seed f.hash_cfg } ||| 1) j :=
    fun j => rfl
  rw [hk] at hi
  simp only [hcfg, hk, hprobe]
  exact get_bit_fold_set_all
    (fun j _ => probe_index_word_lt hwf _ _ j) i hi

lemma might_contain_add_mono {f : filter} {x : List Nat}
    (hcont : might_contain f x = true) (y : List Nat) :
    might_contain (add f y) x = true := by
  rw [might_contain, List.all_eq_true] at hcont ⊢
  intro i hi
  exact get_bit_fold_set_mono (hcont i hi) _

lemma might_contain_foldl_mono {f : filter} (hwf : wf f) {x : List Nat}
    (hcont : might_contain f x = true) (ys : List (List Nat)) :
    might_contain (ys.foldl add f) x = true := by
  induction ys generalizing f with
  | nil => exact hcont
  | cons y ys ih =>
    exact ih (wf_add hwf y) (might_contain_add_mono hcont y)

end bloom

/-! ## Claim C1: the Bloom filter has no false negatives -/

/-- C1: for every well-formed Bloom filter (as produced by either
constructor) and every finite sequence of `add` operations, every element
previously added is reported present by `might_contain`. -/
theorem bloom_no_false_negatives (f : bloom.filter) (xs : List (List Nat)) (x : List Nat)
    (hwf : bloom.wf f) (hx : x ∈ xs) :
    bloom.might_contain (xs.foldl bloom.add f) x = true := by
  induction xs generalizing f with
  | nil => cases hx
  | cons y ys ih =>
    rw [List.foldl_cons]
    rcases List.mem_cons.mp hx with rfl | hx
    · exact bloom.might_contain_foldl_mono (bloom.wf_add hwf x)
        (bloom.might_contain_add_self hwf x) ys
    · exact ih _ (bloom.wf_add hwf y) hx

/-- C1 witness: a one-word filter with `k = 7`; after adding the byte
string `"a"`, membership for `"a"` is reported. -/
theorem bloom_no_false_negatives_witness :
    bloom.wf ⟨[0], 64, 7, ⟨.wyhash, 0, 0⟩⟩ ∧ [97] ∈ [[97]] ∧
      bloom.might_contain ([[97]].foldl bloom.add ⟨[0], 64, 7, ⟨.wyhash, 0, 0⟩⟩) [97] = true :=
  ⟨⟨rfl, by decide⟩, by decide,
    bloom_no_false_negatives ⟨[0], 64, 7, ⟨.wyhash, 0, 0⟩⟩ [[97]] [97] ⟨rfl, by decide⟩ (by decide)⟩

/-! ## CMS helpers and Claim C2 -/

namespace cms

lemma run_params {d w : Nat} {cfg : HashConfig} (t : Trace d w cfg) :
    t.run.depth = d ∧ t.run.width = w ∧ t.run.hash_cfg = cfg := by
  induction t with
  | mk => exact ⟨rfl, rfl, rfl⟩
  | inc t x c ih => exact ih
  | merge a b iha ihb =>
    have hsplit : (cms.merge a.run b.run).1.depth = a.run.depth ∧
        (cms.merge a.run b.run).1.width = a.run.width ∧
        (cms.merge a.run b.run).1.hash_cfg = a.run.hash_cfg := by
      rw [cms.merge]
      split_ifs with h
      · exact ⟨rfl, rfl, rfl⟩
      · exact ⟨rfl, rfl, rfl⟩
    exact ⟨hsplit.1.trans iha.1, hsplit.2.1.trans iha.2.1, hsplit.2.2.trans iha.2.2⟩

lemma cell_lt {d w : Nat} {cfg : HashConfig} (hw : 0 < w) {x : List Nat} {idx : Nat}
    (hidx : idx ∈ touched_cells d w cfg x) : idx < d * w := by
  rcases List.mem_map.mp hidx with ⟨r, hr, rfl⟩
  have hrd := List.mem_range.mp hr
  have hcol : hash_row x cfg r % w < w := Nat.mod_lt _ hw
  calc r * w + hash_row x cfg r % w < r * w + w := by omega
    _ = (r + 1) * w := by ring
    _ ≤ d * w := Nat.mul_le_mul_right w (by omega)

lemma touched_nodup {d w : Nat} {cfg : HashConfig} (hw : 0 < w) (x : List Nat) :
    (touched_cells d w cfg x).Nodup := by
  refine List.Nodup.map_on ?_ (List.nodup_range d)
  intro r1 h1 r2 h2 heq
  have hc1 : hash_row x cfg r1 % w < w := Nat.mod_lt _ hw
  have hc2 : hash_row x cfg r2 % w < w := Nat.mod_lt _ hw
  by_contra hne
  rcases Nat.lt_or_ge r1 r2 with hlt | hge
  · have : r1 * w + w ≤ r2 * w := by
      calc r1 * w + w = (r1 + 1) * w := by ring
        _ ≤ r2 * w := Nat.mul_le_mul_right w (by omega)
    omega
  · have hlt2 : r2 < r1 := by omega
    have : r2 * w + w ≤ r1 * w := by
      calc r2 * w + w = (r2 + 1) * w := by ring
        _ ≤ r1 * w := Nat.mul_le_mul_right w (by omega)
    omega

lemma foldl_set_length (g : Nat → Nat) (v : List Nat → Nat → Nat) :
    ∀ (l : List Nat) (ws : List Nat),
      (l.foldl (fun t r => t.set (g r) (v t r)) ws).length = ws.length := by
  intro l
  induction l with
  | nil => intro ws; rfl
  | cons a l ih =>
    intro ws
    rw [List.foldl_cons, ih, List.length_set]

lemma run_table_length {d w : Nat} {cfg : HashConfig} (t : Trace d w cfg) :
    t.run.table.length = d * w := by
  induction t with
  | mk =>
    show (List.replicate (d * w) 0).length = d * w
    exact List.length_replicate _ _
  | inc t x c ih =>
    show ((List.range t.run.depth).foldl _ t.run.table).length = d * w
    rw [foldl_set_length (fun r => cell_index t.run x r)
      (fun t' r => u64 (t'.getD (cell_index t.run x r) 0 + c))]
    exact ih
  | merge a b iha ihb =>
    show ((cms.merge a.run b.run).1.table.length = d * w)
    rw [cms.merge]
    split_ifs with h
    · simpa using iha
    · exact iha

lemma foldl_inc_getD (c : Nat) (g : Nat → Nat) :
    ∀ (l : List Nat) (ws : List Nat), (l.map g).Nodup → (∀ r ∈ l, g r < ws.length) →
      ∀ idx, (l.foldl (fun t r => t.set (g r) (u64 (t.getD (g r) 0 + c))) ws).getD idx 0 =
        if idx ∈ l.map g then u64 (ws.getD idx 0 + c) else ws.getD idx 0 := by
  intro l
  induction l with
  | nil =>
    intro ws _ _ idx
    simp
  | cons a l ih =>
    intro ws hnd hlt idx
    have hnd' := hnd
    rw [List.map_cons, List.nodup_cons] at hnd'
    rcases hnd' with ⟨hna, hndl⟩
    have hlen : (ws.set (g a) (u64 (ws.getD (g a) 0 + c))).length = ws.length :=
      List.length_set ws _ _
    rw [List.foldl_cons,
      ih _ hndl (fun r hr => by rw [hlen]; exact hlt r (List.mem_cons_of_mem a hr)) idx]
    by_cases hia : idx = g a
    · subst hia
      have hmem : g a ∉ l.map g := hna
      rw [if_neg hmem, if_pos (by rw [List.map_cons]; exact List.mem_cons_self _ _),
        getD_set_self (hlt a (List.mem_cons_self a l)) _]
    · rw [getD_set_ne (fun hc => hia hc.symm)]
      by_cases hml : idx ∈ l.map g
      · rw [if_pos hml, if_pos (by rw [List.map_cons]; exact List.mem_cons_of_mem _ hml)]
      · rw [if_neg hml, if_neg (by
          rw [List.map_cons]
          intro hc
          rcases List.mem_cons.mp hc with hc | hc
          · exact hia hc
          · exact hml hc)]

lemma inc_table_getD {s : sketch} (x : List Nat) (c : Nat) (hw : 0 < s.width)
    (hlen : s.table.length = s.depth * s.width) (idx : Nat) :
    (inc s x c).table.getD idx 0 =
      if idx ∈ touched_cells s.depth s.width s.hash_cfg x then u64 (s.table.getD idx 0 + c)
      else s.table.getD idx 0 := by
  have heq : (List.range s.depth).map (fun r => cell_index s x r) =
      touched_cells s.depth s.width s.hash_cfg x := rfl
  rw [inc]
  rw [foldl_inc_getD c (fun r => cell_index s x r) (List.range s.depth) s.table
    (heq ▸ touched_nodup hw x)
    (fun r hr => by
      rw [hlen]
      exact cell_lt hw (heq ▸ List.mem_map_of_mem _ hr)) idx, heq]

lemma exact_le_total {d w : Nat} {cfg : HashConfig} (t : Trace d w cfg) (idx : Nat) :
    t.exact idx ≤ t.total := by
  induction t with
  | mk => exact le_refl 0
  | inc t y c ih =>
    show t.exact idx + _ ≤ t.total + c
    split_ifs <;> omega
  | merge a b iha ihb => exact Nat.add_le_add iha ihb

lemma exact_zero_of_ge {d w : Nat} {cfg : HashConfig} (hw : 0 < w) (t : Trace d w cfg)
    {idx : Nat} (hidx : d * w ≤ idx) : t.exact idx = 0 := by
  induction t with
  | mk => rfl
  | inc t y c ih =>
    show t.exact idx + _ = 0
    rw [ih, if_neg (fun hc => by have := cell_lt hw hc; omega)]
  | merge a b iha ihb =>
    show a.exact idx + b.exact idx = 0
    rw [iha, ihb]

lemma getD_replicate_zero (n i : Nat) : (List.replicate n (0 : Nat)).getD i 0 = 0 := by
  by_cases h : i < n
  · rw [List.getD_eq_getElem _ _ (by simpa using h), List.getElem_replicate]
  · rw [List.getD_eq_default _ _ (by simpa using h)]

lemma u64_add_u64 (a b : Nat) : u64 (u64 a + u64 b) = u64 (a + b) := by
  rw [u64, u64, u64]
  exact (Nat.add_mod a b U64).symm

lemma u64_add_left (a c : Nat) : u64 (u64 a + c) = u64 (a + c) := by
  rw [u64, u64, u64]
  exact Nat.mod_add_mod a U64 c

lemma run_same_params {d w : Nat} {cfg : HashConfig} (a b : Trace d w cfg) :
    same_params a.run b.run = true := by
  rcases run_params a with ⟨ha1, ha2, ha3⟩
  rcases run_params b with ⟨hb1, hb2, hb3⟩
  simp [same_params, ha1, ha2, ha3, hb1, hb2, hb3]

lemma run_table_getD {d w : Nat} {cfg : HashConfig} (hw : 0 < w) (t : Trace d w cfg)
    (idx : Nat) : t.run.table.getD idx 0 = u64 (t.exact idx) := by
  induction t with
  | mk =>
    show (List.replicate (d * w) 0).getD idx 0 = u64 0
    rw [getD_replicate_zero, u64, Nat.zero_mod]
  | inc t y c ih =>
    rcases run_params t with ⟨hd, hw', hcfg⟩
    show (inc t.run y c).table.getD idx 0 =
      u64 (t.exact idx + if idx ∈ touched_cells d w cfg y then c else 0)
    rw [inc_table_getD y c (by omega) (by rw [run_table_length t, hd, hw']), hd, hw', hcfg]
    split_ifs with hmem
    · rw [ih, u64_add_left]
    · rw [Nat.add_zero]
      exact ih
  | merge a b iha ihb =>
    show (cms.merge a.run b.run).1.table.getD idx 0 = u64 (a.exact idx + b.exact idx)
    rw [cms.merge, if_neg (by rw [run_same_params a b]; simp)]
    by_cases hidx : idx < a.run.table.length
    · have hmap : ((List.range a.run.table.length).map
          (fun i => u64 (a.run.table.getD i 0 + b.run.table.getD i 0))).getD idx 0 =
          u64 (a.run.table.getD idx 0 + b.run.table.getD idx 0) := by
        rw [List.getD_eq_getElem _ _ (by simpa using hidx)]
        simp
      show ((List.range a.run.table.length).map _).getD idx 0 = _
      rw [hmap, iha, ihb, u64_add_u64]
    · have hge : d * w ≤ idx := by
        rw [← run_table_length a]
        omega
      show ((List.range a.run.table.length).map _).getD idx 0 = _
      rw [List.getD_eq_default _ _ (by simpa using hidx),
        exact_zero_of_ge hw a hge, exact_zero_of_ge hw b hge]
      rfl

lemma count_le_exact {d w : Nat} {cfg : HashConfig} (t : Trace d w cfg) (x : List Nat)
    {r : Nat} (hr : r < d) :
    t.count x ≤ t.exact (r * w + hash_row x cfg r % w) := by
  induction t with
  | mk => exact le_refl 0
  | inc t y c ih =>
    show t.count x + _ ≤ t.exact _ + _
    by_cases hxy : y = x
    · subst hxy
      have hmem : r * w + hash_row y cfg r % w ∈ touched_cells d w cfg y :=
        List.mem_map_of_mem (fun r => r * w + hash_row y cfg r % w) (List.mem_range.mpr hr)
      rw [if_pos rfl, if_pos hmem]
      omega
    · rw [if_neg hxy]
      split_ifs <;> omega
  | merge a b iha ihb => exact Nat.add_le_add iha ihb

lemma foldl_min_le_start (l : List Nat) : ∀ a : Nat, l.foldl min a ≤ a := by
  induction l with
  | nil => intro a; exact le_refl a
  | cons x l ih =>
    intro a
    rw [List.foldl_cons]
    exact le_trans (ih _) (min_le_left a x)

lemma foldl_min_le_mem (l : List Nat) : ∀ (a b : Nat), b ∈ l → l.foldl min a ≤ b := by
  induction l with
  | nil => intro a b hb; cases hb
  | cons x l ih =>
    intro a b hb
    rw [List.foldl_cons]
    rcases List.mem_cons.mp hb with rfl | hb
    · exact le_trans (foldl_min_le_start l _) (min_le_right a b)
    · exact ih _ b hb

lemma foldl_min_mem (l : List Nat) : ∀ a : Nat, l.foldl min a = a ∨ l.foldl min a ∈ l := by
  induction l with
  | nil => intro a; exact Or.inl rfl
  | cons x l ih =>
    intro a
    rw [List.foldl_cons]
    rcases ih (min a x) with h | h
    · rcases le_total a x with hax | hax
      · left
        rw [h, min_eq_left hax]
      · right
        rw [h, min_eq_right hax]
        exact List.mem_cons_self x l
    · exact Or.inr (List.mem_cons_of_mem x h)

lemma estimate_eq_foldl (s : sketch) (x : List Nat) :
    estimate s x = (if (row_values s x).foldl min U64MAX = U64MAX then 0
      else (row_values s x).foldl min U64MAX) := by
  rw [estimate, row_values, List.foldl_map]

end cms

set_option maxRecDepth 8192 in
/-- C2 counterexample: incrementing one key by `2^64 − 1` and then by `1`
wraps the 64-bit counters to zero in a depth-1, width-3 sketch (as
produced by `make_by_eps_delta(0.99, 0.5)`), so `estimate` drops below
the true accumulated count `2^64`. -/
theorem cms_estimate_overflow_counterexample :
    ¬ ((((cms.Trace.mk : cms.Trace 1 3 ⟨.wyhash, 0, 0⟩).inc [97] U64MAX).inc [97] 1).count [97] ≤
      cms.estimate ((((cms.Trace.mk : cms.Trace 1 3 ⟨.wyhash, 0, 0⟩).inc [97] U64MAX).inc
        [97] 1).run) [97]) := by
  decide

/-- C2 amended: as long as the total of all increments across the trace
(including merged-in sketches) stays below `2^64 − 1` — so no 64-bit cell
wraps and no cell reaches the `UINT64_MAX` fold sentinel — `estimate(x)`
equals the minimum over the `d` row cells addressed by `x`'s row hashes
and is at least the true accumulated count of `x`. -/
theorem cms_estimate_spec {d w : Nat} {cfg : HashConfig} (t : cms.Trace d w cfg)
    (x : List Nat) (hd : 0 < d) (hw : 0 < w) (htot : t.total < U64MAX) :
    cms.estimate t.run x ∈ cms.row_values t.run x ∧
    (∀ v ∈ cms.row_values t.run x, cms.estimate t.run x ≤ v) ∧
    t.count x ≤ cms.estimate t.run x := by
  rcases cms.run_params t with ⟨hdep, hwid, hcfg⟩
  have hval : ∀ v ∈ cms.row_values t.run x, v < U64MAX ∧ t.count x ≤ v := by
    intro v hv
    rcases List.mem_map.mp hv with ⟨r, hr, rfl⟩
    have hrd : r < d := by
      rw [hdep] at hr
      exact List.mem_range.mp hr
    have hcell : cms.cell_index t.run x r = r * w + cms.hash_row x cfg r % w := by
      rw [cms.cell_index, cms.col, hwid, hcfg]
    rw [cms.run_table_getD hw t, hcell]
    have hex := cms.exact_le_total t (r * w + cms.hash_row x cfg r % w)
    have hcnt := cms.count_le_exact t x hrd
    rw [u64, Nat.mod_eq_of_lt (by
      have : U64MAX < U64 := by norm_num [U64MAX, U64]
      omega)]
    exact ⟨by omega, hcnt⟩
  have hne : cms.row_values t.run x ≠ [] := by
    rw [cms.row_values, hdep]
    intro hc
    have := congrArg List.length hc
    simp at this
    omega
  have hfold := cms.foldl_min_mem (cms.row_values t.run x) U64MAX
  have hmem : (cms.row_values t.run x).foldl min U64MAX ∈ cms.row_values t.run x := by
    rcases hfold with h | h
    · exfalso
      rcases List.exists_mem_of_ne_nil _ hne with ⟨v, hv⟩
      have hle := cms.foldl_min_le_mem (cms.row_values t.run x) U64MAX v hv
      have := (hval v hv).1
      omega
    · exact h
  have hfne : (cms.row_values t.run x).foldl min U64MAX ≠ U64MAX := by
    have := (hval _ hmem).1
    omega
  rw [cms.estimate_eq_foldl, if_neg hfne]
  exact ⟨hmem, fun v hv => cms.foldl_min_le_mem _ _ v hv, (hval _ hmem).2⟩

/-- C2 witness: depth-1 width-3 sketch, one increment of 5 on `"a"`. -/
theorem cms_estimate_spec_witness :
    cms.estimate ((cms.Trace.mk : cms.Trace 1 3 ⟨.wyhash, 0, 0⟩).inc [97] 5).run [97] ∈
      cms.row_values ((cms.Trace.mk : cms.Trace 1 3 ⟨.wyhash, 0, 0⟩).inc [97] 5).run [97] ∧
    (∀ v ∈ cms.row_values ((cms.Trace.mk : cms.Trace 1 3 ⟨.wyhash, 0, 0⟩).inc [97] 5).run [97],
      cms.estimate ((cms.Trace.mk : cms.Trace 1 3 ⟨.wyhash, 0, 0⟩).inc [97] 5).run [97] ≤ v) ∧
    ((cms.Trace.mk : cms.Trace 1 3 ⟨.wyhash, 0, 0⟩).inc [97] 5).count [97] ≤
      cms.estimate ((cms.Trace.mk : cms.Trace 1 3 ⟨.wyhash, 0, 0⟩).inc [97] 5).run [97] :=
  cms_estimate_spec ((cms.Trace.mk : cms.Trace 1 3 ⟨.wyhash, 0, 0⟩).inc [97] 5) [97]
    (by decide) (by decide) (by decide)

/-! ## HLL helpers: the rank computation in spec form -/

namespace hll

/-- The index used by the spec's description of `Add(x)`: the top `p` bits
of the 64-bit hash. -/
def spec_index (h p : Nat) : Nat := h / 2 ^ (64 - p)

/-- The rank in the spec's description of `Add(x)`: one plus the number of
leading zeros of the remaining `64 - p` bits (size-based count, so the
all-zero tail yields the maximum `64 - p + 1`). -/
def spec_rho (h p : Nat) : Nat := 1 + ((64 - p) - Nat.size (h % 2 ^ (64 - p)))

lemma size_two_pow (k : Nat) : Nat.size (2 ^ k) = k + 1 := by
  refine le_antisymm (Nat.size_le.mpr ?_) (Nat.lt_size.mpr (le_refl _))
  exact Nat.pow_lt_pow_right one_lt_two (Nat.lt_succ_self k)

lemma size_shiftLeft_lor_two_pow {t p : Nat} (hp : 0 < p) (ht : t ≠ 0) :
    Nat.size (t <<< p ||| 2 ^ (p - 1)) = Nat.size t + p := by
  have hs : 0 < Nat.size t := Nat.size_pos.mpr (Nat.pos_of_ne_zero ht)
  have h1 : t <<< p ||| 2 ^ (p - 1) < 2 ^ (Nat.size t + p) := by
    refine Nat.bitwise_lt ?_ ?_
    · rw [Nat.shiftLeft_eq, pow_add]
      exact (Nat.mul_lt_mul_right (Nat.pos_pow_of_pos p (by omega))).mpr (Nat.lt_size_self t)
    · calc 2 ^ (p - 1) < 2 ^ p := Nat.pow_lt_pow_right one_lt_two (by omega)
        _ ≤ 2 ^ (Nat.size t + p) := Nat.pow_le_pow_right (by omega) (by omega)
  have h2 : 2 ^ (Nat.size t + p - 1) ≤ t <<< p ||| 2 ^ (p - 1) := by
    have hle : 2 ^ (Nat.size t - 1) ≤ t := Nat.lt_size.mp (by omega)
    calc 2 ^ (Nat.size t + p - 1) = 2 ^ (Nat.size t - 1) * 2 ^ p := by
          rw [← pow_add]
          congr 1
          omega
      _ ≤ t * 2 ^ p := Nat.mul_le_mul_right _ hle
      _ = t <<< p := (Nat.shiftLeft_eq t p).symm
      _ ≤ t <<< p ||| 2 ^ (p - 1) := le_lor_left _ _
  have hge := Nat.lt_size.mpr h2
  have hle := Nat.size_le.mpr h1
  omega

lemma u64_shiftLeft_eq {h p : Nat} (hp : p ≤ 64) :
    u64 (h <<< p) = (h % 2 ^ (64 - p)) <<< p := by
  rw [u64, U64, Nat.shiftLeft_eq, Nat.shiftLeft_eq]
  have h64 : (2 : Nat) ^ 64 = 2 ^ (64 - p) * 2 ^ p := by
    rw [← pow_add]
    congr 1
    omega
  rw [h64, Nat.mul_mod_mul_right]

/-- The code's `rho_from_hash` computes exactly the spec's rank. -/
lemma rho_from_hash_eq_spec {p : Nat} (h : Nat) (hp4 : 4 ≤ p) (hp20 : p ≤ 20) :
    rho_from_hash h p = spec_rho h p := by
  have hwpos : 0 < 64 - p := by omega
  have htlt : h % 2 ^ (64 - p) < 2 ^ (64 - p) :=
    Nat.mod_lt _ (Nat.pos_pow_of_pos _ (by omega))
  have hst : Nat.size (h % 2 ^ (64 - p)) ≤ 64 - p := Nat.size_le.mpr htlt
  rw [rho_from_hash, leading_zeroes_64, u64_shiftLeft_eq (by omega), spec_rho,
    Nat.shiftLeft_eq 1, one_mul]
  by_cases ht : h % 2 ^ (64 - p) = 0
  · rw [ht, Nat.zero_shiftLeft, Nat.zero_or, size_two_pow, Nat.size_zero]
    have hp1 : p - 1 + 1 = p := by omega
    rw [hp1]
    split_ifs <;> omega
  · rw [size_shiftLeft_lor_two_pow (by omega) ht]
    have hs : 0 < Nat.size (h % 2 ^ (64 - p)) := Nat.size_pos.mpr (Nat.pos_of_ne_zero ht)
    split_ifs <;> omega

lemma spec_index_lt {h p : Nat} (hh : h < U64) (hp : p ≤ 64) : spec_index h p < 2 ^ p := by
  rw [spec_index]
  refine (Nat.div_lt_iff_lt_mul (Nat.pos_pow_of_pos _ (by omega))).mpr ?_
  calc h < U64 := hh
    _ = 2 ^ p * 2 ^ (64 - p) := by
        rw [U64, ← pow_add]
        congr 1
        omega

/-- The post-state of `add` in spec terms: the single register at the
spec index is raised to the spec rank, everything else untouched. -/
lemma add_registers_eq (s : sketch) (x : List Nat) (hp4 : 4 ≤ s.p) (hp20 : s.p ≤ 20) :
    (add s x).registers =
      s.registers.set (spec_index (hashing.hash64 x s.hash_cfg) s.p)
        (max (spec_rho (hashing.hash64 x s.hash_cfg) s.p)
          (s.registers.getD (spec_index (hashing.hash64 x s.hash_cfg) s.p) 0)) := by
  have hidx : (hashing.hash64 x s.hash_cfg >>> (64 - s.p)) &&& (2 ^ s.p - 1) =
      spec_index (hashing.hash64 x s.hash_cfg) s.p := by
    rw [Nat.shiftRight_eq_div_pow, Nat.and_pow_two_sub_one_eq_mod, ← spec_index]
    exact Nat.mod_eq_of_lt (spec_index_lt (hashing.hash64_lt x s.hash_cfg) (by omega))
  rw [add]
  simp only [hidx, rho_from_hash_eq_spec _ hp4 hp20]

end hll

/-! ## Claim C3: the HLL `add` operation -/

/-- C3: `add(x)` hashes `x`, indexes register `i = top p bits of h`,
computes the rank `ρ = 1 + leading zeros of the remaining 64−p bits`
clamped to `64−p+1` (all-zero tail gives the maximum), raises
`registers[i]` to `max(registers[i], ρ)`, and leaves every other register
unchanged. -/
theorem hll_add_spec (s : hll.sketch) (x : List Nat) (hp4 : 4 ≤ s.p) (hp20 : s.p ≤ 20)
    (hlen : s.registers.length = 2 ^ s.p) :
    (hll.add s x).registers.getD (hll.spec_index (hashing.hash64 x s.hash_cfg) s.p) 0 =
      max (hll.spec_rho (hashing.hash64 x s.hash_cfg) s.p)
        (s.registers.getD (hll.spec_index (hashing.hash64 x s.hash_cfg) s.p) 0) ∧
    (∀ j, j ≠ hll.spec_index (hashing.hash64 x s.hash_cfg) s.p →
      (hll.add s x).registers.getD j 0 = s.registers.getD j 0) ∧
    1 ≤ hll.spec_rho (hashing.hash64 x s.hash_cfg) s.p ∧
    hll.spec_rho (hashing.hash64 x s.hash_cfg) s.p ≤ 64 - s.p + 1 := by
  have hireg := hll.add_registers_eq s x hp4 hp20
  have hilt : hll.spec_index (hashing.hash64 x s.hash_cfg) s.p < s.registers.length := by
    rw [hlen]
    exact hll.spec_index_lt (hashing.hash64_lt x s.hash_cfg) (by omega)
  refine ⟨?_, ?_, ?_, ?_⟩
  · rw [hireg, getD_set_self hilt]
  · intro j hj
    rw [hireg, getD_set_ne (fun hcon => hj hcon.symm)]
  · rw [hll.spec_rho]
    omega
  · rw [hll.spec_rho]
    omega

/-- C3 witness: a fresh precision-4 sketch and the byte string `"a"`. -/
theorem hll_add_spec_witness :
    4 ≤ (4 : Nat) ∧ (4 : Nat) ≤ 20 ∧ (List.replicate 16 0).length = 2 ^ 4 ∧
      ((hll.add ⟨4, ⟨.wyhash, 0, 0⟩, List.replicate 16 0⟩ [97]).registers.getD
          (hll.spec_index (hashing.hash64 [97] ⟨.wyhash, 0, 0⟩) 4) 0 =
        max (hll.spec_rho (hashing.hash64 [97] ⟨.wyhash, 0, 0⟩) 4)
          ((List.replicate 16 0).getD
            (hll.spec_index (hashing.hash64 [97] ⟨.wyhash, 0, 0⟩) 4) 0) ∧
      (∀ j, j ≠ hll.spec_index (hashing.hash64 [97] ⟨.wyhash, 0, 0⟩) 4 →
        (hll.add ⟨4, ⟨.wyhash, 0, 0⟩, List.replicate 16 0⟩ [97]).registers.getD j 0 =
          (List.replicate 16 0).getD j 0) ∧
      1 ≤ hll.spec_rho (hashing.hash64 [97] ⟨.wyhash, 0, 0⟩) 4 ∧
      hll.spec_rho (hashing.hash64 [97] ⟨.wyhash, 0, 0⟩) 4 ≤ 64 - 4 + 1) :=
  ⟨by decide, by decide, by decide,
    hll_add_spec ⟨4, ⟨.wyhash, 0, 0⟩, List.replicate 16 0⟩ [97] (by decide) (by decide) (by decide)⟩

/-! ## Claim C7: range of the HLL registers over reachable states -/

lemma getD_le_of_forall {l : List Nat} {B : Nat} (h : ∀ v ∈ l, v ≤ B) (i : Nat) :
    l.getD i 0 ≤ B := by
  by_cases hi : i < l.length
  · rw [List.getD_eq_getElem l 0 hi]
    exact h _ (List.getElem_mem hi)
  · rw [List.getD_eq_default l 0 (by omega)]
    exact Nat.zero_le B

lemma rho_from_hash_le (h p : Nat) : hll.rho_from_hash h p ≤ 64 - p + 1 := by
  rw [hll.rho_from_hash]
  split_ifs <;> omega

/-- C7 counterexample: a freshly constructed precision-4 sketch is a
reachable state whose registers are all `0`, outside `1..=(64-p+1)`. -/
theorem hll_fresh_register_zero_counterexample :
    hll.make_by_precision 4 ⟨.wyhash, 0, 0⟩ =
      .ok ⟨4, ⟨.wyhash, 0, 0⟩, List.replicate 16 0⟩ ∧
    (0 : Nat) ∈ List.replicate 16 (0 : Nat) ∧ ¬ (1 ≤ (0 : Nat)) :=
  ⟨rfl, by decide, by decide⟩

/-- C7 amended: in every reachable HLL state the registers lie in
`0..=(64-p+1)` — `0` marks a never-touched register (the spec's `1..=`
range only holds for registers that have absorbed an element). -/
lemma hll_merge_cases (s o : hll.sketch) :
    (hll.merge s o).1 = s ∨
      ((hll.merge s o).1 =
          { s with registers := ((List.range s.registers.length).map
              fun i => max (o.registers.getD i 0) (s.registers.getD i 0)) } ∧
        hll.same_params s o = true) := by
  rw [hll.merge]
  split_ifs with h
  · right
    exact ⟨rfl, h⟩
  · left
    rfl

theorem hll_register_range (s : hll.sketch) (hs : hll.Reachable s) :
    ∀ v ∈ s.registers, v ≤ 64 - s.p + 1 := by
  induction hs with
  | make h =>
    rename_i p cfg s'
    rw [hll.make_by_precision] at h
    by_cases hp : p < 4 ∨ p > 20
    · rw [if_pos hp] at h
      cases h
    · rw [if_neg hp] at h
      have h' := Except.ok.inj h
      subst h'
      intro v hv
      rw [List.eq_of_mem_replicate hv]
      exact Nat.zero_le _
  | add hs x ih =>
    rename_i s'
    intro v hv
    rw [hll.add] at hv
    rcases List.mem_or_eq_of_mem_set hv with hv | rfl
    · exact ih v hv
    · have h1 := rho_from_hash_le (hashing.hash64 x s'.hash_cfg) s'.p
      have h2 := getD_le_of_forall ih
        ((hashing.hash64 x s'.hash_cfg >>> (64 - s'.p)) &&& (2 ^ s'.p - 1))
      exact max_le h1 h2
  | merge hs ho ihs iho =>
    rename_i s' o
    rcases hll_merge_cases s' o with hm | ⟨hm, hsp⟩
    · rw [hm]
      exact ihs
    · rw [hm]
      intro v hv
      simp only [List.mem_map, List.mem_range] at hv
      rcases hv with ⟨i, _, rfl⟩
      have hpo : o.p = s'.p := by
        simp only [hll.same_params, decide_eq_true_eq] at hsp
        exact hsp.1.symm
      have hob := getD_le_of_forall iho i
      rw [hpo] at hob
      exact max_le hob (getD_le_of_forall ihs i)

/-- C7 witness: the amended bound evaluated on a register of a freshly
constructed precision-4 sketch. -/
theorem hll_register_range_witness :
    (0 : Nat) ∈ (⟨4, ⟨.wyhash, 0, 0⟩, List.replicate 16 0⟩ : hll.sketch).registers ∧
      (0 : Nat) ≤ 61 :=
  ⟨by decide,
    hll_register_range ⟨4, ⟨.wyhash, 0, 0⟩, List.replicate 16 0⟩
      (@hll.Reachable.make 4 ⟨.wyhash, 0, 0⟩ ⟨4, ⟨.wyhash, 0, 0⟩, List.replicate 16 0⟩ rfl)
      0 (by decide)⟩

/-! ## SPSC ring helpers and Claim C5 -/

namespace cli.util

lemma mod_two_char {a C : Nat} (_hC : 0 < C) (h : a < 2 * C) :
    a % C = if a < C then a else a - C := by
  split_ifs with h1
  · exact Nat.mod_eq_of_lt h1
  · rw [Nat.mod_eq_sub_mod (by omega), Nat.mod_eq_of_lt (by omega)]

lemma mod_add_inj {C i j t : Nat} (hi : i < C) (hj : j < C)
    (h : (t + i) % C = (t + j) % C) : i = j := by
  have h2 : i % C = j % C := Nat.ModEq.add_left_cancel' t h
  rwa [Nat.mod_eq_of_lt hi, Nat.mod_eq_of_lt hj] at h2

lemma ring_size_lt {α : Type} (s : spsc_ring α) (hC : 0 < s.capacity) :
    ring_size s < s.capacity :=
  Nat.mod_lt _ hC

lemma ring_size_char {α : Type} (s : spsc_ring α) (hh : s.head < s.capacity)
    (ht : s.tail < s.capacity) :
    ring_size s = if s.tail ≤ s.head then s.head - s.tail
      else s.capacity + s.head - s.tail := by
  rw [ring_size, mod_two_char (by omega) (by omega)]
  split_ifs <;> omega

lemma tail_add_ring_size {α : Type} (s : spsc_ring α) (hwf : ring_wf s) :
    (s.tail + ring_size s) % s.capacity = s.head := by
  rcases hwf with ⟨hh, ht, _⟩
  rw [ring_size_char s hh ht]
  split_ifs with h1
  · rw [show s.tail + (s.head - s.tail) = s.head by omega, Nat.mod_eq_of_lt hh]
  · rw [show s.tail + (s.capacity + s.head - s.tail) = s.capacity + s.head by omega,
      Nat.add_mod_left, Nat.mod_eq_of_lt hh]

lemma push_full {α : Type} (s : spsc_ring α) (v : α)
    (hfull : (s.head + 1) % s.capacity = s.tail) : s.push v = (false, s) := by
  rw [spsc_ring.push, if_pos hfull]

lemma push_ok {α : Type} [Inhabited α] {s : spsc_ring α} (hwf : ring_wf s) (v : α)
    (hfull : (s.head + 1) % s.capacity ≠ s.tail) :
    (s.push v).1 = true ∧ ring_wf (s.push v).2 ∧
      contents (s.push v).2 = contents s ++ [v] := by
  rcases hwf with ⟨hh, ht, hd⟩
  have hC : 0 < s.capacity := by omega
  have hpush : s.push v =
      (true, { s with data := s.data.set s.head v, head := (s.head + 1) % s.capacity }) := by
    rw [spsc_ring.push, if_neg hfull]
  rw [hpush]
  refine ⟨rfl, ⟨Nat.mod_lt _ hC, ht, ?_⟩, ?_⟩
  · show (s.data.set s.head v).length = s.capacity
    rw [List.length_set]
    exact hd
  have hnx : (s.head + 1) % s.capacity = if s.head + 1 < s.capacity then s.head + 1 else 0 := by
    rw [mod_two_char hC (by omega)]
    split_ifs <;> omega
  have hsz : ring_size { s with data := s.data.set s.head v, head := (s.head + 1) % s.capacity } =
      ring_size s + 1 := by
    have hs1 : ring_size { s with data := s.data.set s.head v, head := (s.head + 1) % s.capacity } =
        if s.tail ≤ (s.head + 1) % s.capacity then (s.head + 1) % s.capacity - s.tail
        else s.capacity + (s.head + 1) % s.capacity - s.tail :=
      ring_size_char _ (Nat.mod_lt _ hC) ht
    rw [hs1, ring_size_char s hh ht, hnx]
    rw [hnx] at hfull
    split_ifs at hfull ⊢ <;> omega
  have hidx : ∀ i < ring_size s, (s.tail + i) % s.capacity ≠ s.head := by
    intro i hi hcon
    have hieq : i = ring_size s :=
      mod_add_inj (by
          have := ring_size_lt s hC
          omega) (ring_size_lt s hC) (hcon.trans (tail_add_ring_size s ⟨hh, ht, hd⟩).symm)
    omega
  show contents { s with data := s.data.set s.head v, head := (s.head + 1) % s.capacity } =
    contents s ++ [v]
  rw [contents, contents, hsz, List.range_succ, List.map_append]
  congr 1
  · refine List.map_congr_left fun i hi => ?_
    have hi' := List.mem_range.mp hi
    show (s.data.set s.head v).getD ((s.tail + i) % s.capacity) default = _
    rw [getD_set_ne (fun hc => hidx i hi' hc.symm)]
  · show [(s.data.set s.head v).getD ((s.tail + ring_size s) % s.capacity) default] = [v]
    rw [tail_add_ring_size s ⟨hh, ht, hd⟩, getD_set_self (by omega)]

lemma pop_empty {α : Type} [Inhabited α] (s : spsc_ring α) (he : s.tail = s.head) :
    s.pop = (none, s) := by
  rw [spsc_ring.pop, if_pos he]

lemma contents_nil_of_empty {α : Type} [Inhabited α] (s : spsc_ring α) (hC : 0 < s.capacity)
    (he : s.tail = s.head) : contents s = [] := by
  rw [contents, ring_size, he, show s.capacity + s.head - s.head = s.capacity by omega,
    Nat.mod_self]
  rfl

lemma pop_ok {α : Type} [Inhabited α] {s : spsc_ring α} (hwf : ring_wf s)
    (hne : s.tail ≠ s.head) :
    (s.pop).1 = some (s.data.getD s.tail default) ∧ ring_wf (s.pop).2 ∧
      contents s = s.data.getD s.tail default :: contents (s.pop).2 := by
  rcases hwf with ⟨hh, ht, hd⟩
  have hC : 0 < s.capacity := by omega
  have hpop : s.pop = (some (s.data.getD s.tail default),
      { s with tail := (s.tail + 1) % s.capacity }) := by
    rw [spsc_ring.pop, if_neg hne]
  rw [hpop]
  refine ⟨rfl, ⟨hh, Nat.mod_lt _ hC, hd⟩, ?_⟩
  have hszpos : 0 < ring_size s := by
    rw [ring_size_char s hh ht]
    split_ifs <;> omega
  have hnx : (s.tail + 1) % s.capacity = if s.tail + 1 < s.capacity then s.tail + 1 else 0 := by
    rw [mod_two_char hC (by omega)]
    split_ifs <;> omega
  have hsz : ring_size { s with tail := (s.tail + 1) % s.capacity } = ring_size s - 1 := by
    have hs1 : ring_size { s with tail := (s.tail + 1) % s.capacity } =
        if (s.tail + 1) % s.capacity ≤ s.head then s.head - (s.tail + 1) % s.capacity
        else s.capacity + s.head - (s.tail + 1) % s.capacity :=
      ring_size_char _ hh (Nat.mod_lt _ hC)
    rw [hs1, ring_size_char s hh ht, hnx]
    split_ifs <;> omega
  show contents s = s.data.getD s.tail default ::
    contents { s with tail := (s.tail + 1) % s.capacity }
  rw [contents, contents, hsz]
  have hrs : ring_size s = (ring_size s - 1) + 1 := by omega
  rw [hrs, List.range_succ_eq_map]
  rw [List.map_cons, List.map_map]
  congr 1
  · rw [show (s.tail + 0) % s.capacity = s.tail from by
      rw [Nat.add_zero, Nat.mod_eq_of_lt ht]]
  · refine List.map_congr_left fun i hi => ?_
    show s.data.getD ((s.tail + Nat.succ i) % s.capacity) default =
      s.data.getD (((s.tail + 1) % s.capacity + i) % s.capacity) default
    rw [Nat.mod_add_mod, show s.tail + 1 + i = s.tail + Nat.succ i by omega]

lemma runOps_fifo {α : Type} [Inhabited α] (ops : List (RingOp α)) :
    ∀ s : spsc_ring α, ring_wf s →
      ring_wf (runOps s ops).1 ∧
      contents s ++ (runOps s ops).2.1 = (runOps s ops).2.2 ++ contents (runOps s ops).1 := by
  induction ops with
  | nil =>
    intro s hwf
    refine ⟨hwf, ?_⟩
    show contents s ++ [] = [] ++ contents s
    rw [List.append_nil, List.nil_append]
  | cons op ops ih =>
    intro s hwf
    cases op with
    | push v =>
      by_cases hfull : (s.head + 1) % s.capacity = s.tail
      · have hp := push_full s v hfull
        rcases ih s hwf with ⟨h1, h2⟩
        show ring_wf (runOps (s.push v).2 ops).1 ∧
          contents s ++ ((if (s.push v).1 then [v] else []) ++ (runOps (s.push v).2 ops).2.1) =
            (runOps (s.push v).2 ops).2.2 ++ contents (runOps (s.push v).2 ops).1
        rw [hp]
        refine ⟨h1, ?_⟩
        show contents s ++ ([] ++ (runOps s ops).2.1) = _
        rw [List.nil_append]
        exact h2
      · rcases push_ok hwf v hfull with ⟨hp1, hp2, hp3⟩
        rcases ih (s.push v).2 hp2 with ⟨h1, h2⟩
        refine ⟨h1, ?_⟩
        show contents s ++ ((if (s.push v).1 then [v] else []) ++ (runOps (s.push v).2 ops).2.1) =
          (runOps (s.push v).2 ops).2.2 ++ contents (runOps (s.push v).2 ops).1
        rw [hp1]
        show contents s ++ ([v] ++ (runOps (s.push v).2 ops).2.1) = _
        rw [← List.append_assoc, ← hp3, h2]
    | pop =>
      by_cases hemp : s.tail = s.head
      · have hp := pop_empty s hemp
        rcases ih s hwf with ⟨h1, h2⟩
        show ring_wf (runOps (s.pop).2 ops).1 ∧
          contents s ++ (runOps (s.pop).2 ops).2.1 =
            ((match (s.pop).1 with | some v => [v] | none => []) ++ (runOps (s.pop).2 ops).2.2) ++
              contents (runOps (s.pop).2 ops).1
        rw [hp]
        refine ⟨h1, ?_⟩
        show contents s ++ (runOps s ops).2.1 = ([] ++ (runOps s ops).2.2) ++ contents _
        rw [List.nil_append]
        exact h2
      · rcases pop_ok hwf hemp with ⟨hp1, hp2, hp3⟩
        rcases ih (s.pop).2 hp2 with ⟨h1, h2⟩
        refine ⟨h1, ?_⟩
        show contents s ++ (runOps (s.pop).2 ops).2.1 =
          ((match (s.pop).1 with | some v => [v] | none => []) ++ (runOps (s.pop).2 ops).2.2) ++
            contents (runOps (s.pop).2 ops).1
        rw [hp1, hp3]
        show s.data.getD s.tail default :: contents (s.pop).2 ++ (runOps (s.pop).2 ops).2.1 =
          ([s.data.getD s.tail default] ++ (runOps (s.pop).2 ops).2.2) ++
            contents (runOps (s.pop).2 ops).1
        rw [List.cons_append, List.singleton_append, List.cons_append, h2]

end cli.util

/-! ## Claim C5: the SPSC ring -/

/-- C5: `push` returns `false` exactly when `(head+1) mod C = tail`,
so a well-formed ring never holds more than `C−1` items; `pop` returns
`none` exactly when `head = tail`; and running any operation sequence
from a fresh ring, the popped values together with the remaining queue
contents are exactly the accepted pushed values in FIFO order. -/
theorem spsc_ring_spec (α : Type) [Inhabited α] (C : Nat) (s : cli.util.spsc_ring α) (v : α)
    (ops : List (cli.util.RingOp α)) (hwf : cli.util.ring_wf s) (hC : 0 < C) :
    ((s.push v).1 = false ↔ (s.head + 1) % s.capacity = s.tail) ∧
    ((s.pop).1 = none ↔ s.head = s.tail) ∧
    (cli.util.contents s).length ≤ s.capacity - 1 ∧
    (cli.util.contents (cli.util.spsc_ring.mk_ring α C) ++
        (cli.util.runOps (cli.util.spsc_ring.mk_ring α C) ops).2.1 =
      (cli.util.runOps (cli.util.spsc_ring.mk_ring α C) ops).2.2 ++
        cli.util.contents (cli.util.runOps (cli.util.spsc_ring.mk_ring α C) ops).1) := by
  have hCs : 0 < s.capacity := by
    rcases hwf with ⟨hh, _, _⟩
    omega
  refine ⟨?_, ?_, ?_, ?_⟩
  · rw [cli.util.spsc_ring.push]
    split_ifs with h
    · exact ⟨fun _ => h, fun _ => rfl⟩
    · constructor
      · intro hc
        exact hc.elim
      · intro hc
        exact absurd hc h
  · rw [cli.util.spsc_ring.pop]
    split_ifs with h
    · exact ⟨fun _ => h.symm, fun _ => rfl⟩
    · constructor
      · intro hc
        exact hc.elim
      · intro hc
        exact absurd hc.symm h
  · rw [cli.util.contents, List.length_map, List.length_range]
    have := cli.util.ring_size_lt s hCs
    omega
  · have hwf0 : cli.util.ring_wf (cli.util.spsc_ring.mk_ring α C) :=
      ⟨hC, hC, by rw [cli.util.spsc_ring.mk_ring, List.length_replicate]⟩
    exact (cli.util.runOps_fifo ops _ hwf0).2

/-- C5 witness: capacity-3 ring of naturals; push 5, push 6, pop, pop. -/
theorem spsc_ring_spec_witness :
    (((⟨3, [0, 0, 0], 0, 0⟩ : cli.util.spsc_ring Nat).push 5).1 = false ↔
      (0 + 1) % 3 = 0) ∧
    ((⟨3, [0, 0, 0], 0, 0⟩ : cli.util.spsc_ring Nat).pop.1 = none ↔ (0 : Nat) = 0) ∧
    (cli.util.contents (⟨3, [0, 0, 0], 0, 0⟩ : cli.util.spsc_ring Nat)).length ≤ 3 - 1 ∧
    (cli.util.contents (cli.util.spsc_ring.mk_ring Nat 3) ++
        (cli.util.runOps (cli.util.spsc_ring.mk_ring Nat 3)
          [.push 5, .push 6, .pop, .pop]).2.1 =
      (cli.util.runOps (cli.util.spsc_ring.mk_ring Nat 3)
          [.push 5, .push 6, .pop, .pop]).2.2 ++
        cli.util.contents (cli.util.runOps (cli.util.spsc_ring.mk_ring Nat 3)
          [.push 5, .push 6, .pop, .pop]).1) :=
  spsc_ring_spec Nat 3 ⟨3, [0, 0, 0], 0, 0⟩ 5 [.push 5, .push 6, .pop, .pop]
    ⟨by decide, by decide, by decide⟩ (by decide)

/-! ## Claim C9: `parse_duration` -/

namespace cli.util.timeutil

/-- The digit-accumulation step of the scanning loop. -/
def digitStep (v : Nat) (c : Char) : Nat := v * 10 + (c.toNat - '0'.toNat)

lemma digitsVal_eq_foldl (ds : List Char) : digitsVal ds = ds.foldl digitStep 0 := rfl

lemma scan_le (s : List Char) :
    ∀ (a v : Nat) (rest : List Char), scanDigits s a = some (v, rest) → a ≤ U64MAX →
      v ≤ U64MAX := by
  induction s with
  | nil =>
    intro a v rest h ha
    rw [scanDigits] at h
    injection h with h
    rw [Prod.mk.injEq] at h
    omega
  | cons c cs ih =>
    intro a v rest h ha
    rw [scanDigits] at h
    by_cases hd : '0' ≤ c ∧ c ≤ '9'
    · rw [if_pos hd] at h
      by_cases hov : a > (U64MAX - (c.toNat - '0'.toNat)) / 10
      · rw [if_pos hov] at h
        cases h
      · rw [if_neg hov] at h
        refine ih _ _ _ h ?_
        rw [not_lt, Nat.le_div_iff_mul_le (by omega)] at hov
        have hc9 : c.toNat ≤ 57 := hd.2
        have hc0 : 48 ≤ c.toNat := hd.1
        have hM : U64MAX = 18446744073709551615 := rfl
        omega
    · rw [if_neg hd] at h
      injection h with h
      rw [Prod.mk.injEq] at h
      omega

lemma scan_decomp (s : List Char) :
    ∀ (a v : Nat) (rest : List Char), scanDigits s a = some (v, rest) →
      ∃ ds : List Char, s = ds ++ rest ∧ (∀ c ∈ ds, '0' ≤ c ∧ c ≤ '9') ∧
        v = ds.foldl digitStep a := by
  induction s with
  | nil =>
    intro a v rest h
    rw [scanDigits] at h
    injection h with h
    rw [Prod.mk.injEq] at h
    refine ⟨[], by rw [← h.2]; rfl, fun c hc => absurd hc (List.not_mem_nil c), h.1.symm⟩
  | cons c cs ih =>
    intro a v rest h
    rw [scanDigits] at h
    by_cases hd : '0' ≤ c ∧ c ≤ '9'
    · rw [if_pos hd] at h
      by_cases hov : a > (U64MAX - (c.toNat - '0'.toNat)) / 10
      · rw [if_pos hov] at h
        cases h
      · rw [if_neg hov] at h
        rcases ih _ _ _ h with ⟨ds, hseq, hdig, hval⟩
        refine ⟨c :: ds, by rw [List.cons_append, hseq], ?_, ?_⟩
        · intro c' hc'
          rcases List.mem_cons.mp hc' with rfl | hc'
          · exact hd
          · exact hdig c' hc'
        · rw [List.foldl_cons]
          exact hval
    · rw [if_neg hd] at h
      injection h with h
      rw [Prod.mk.injEq] at h
      exact ⟨[], by rw [← h.2]; rfl, fun c hc => absurd hc (List.not_mem_nil c), h.1.symm⟩

lemma foldl_digits_ge (ds : List Char) : ∀ a : Nat, a ≤ ds.foldl digitStep a := by
  induction ds with
  | nil => intro a; exact le_refl a
  | cons c ds ih =>
    intro a
    rw [List.foldl_cons]
    refine le_trans ?_ (ih (digitStep a c))
    rw [digitStep]
    omega

lemma scan_append (ds : List Char) :
    ∀ (a : Nat) (rest : List Char), (∀ c ∈ ds, '0' ≤ c ∧ c ≤ '9') →
      (∀ c cs, rest = c :: cs → ¬('0' ≤ c ∧ c ≤ '9')) →
      ds.foldl digitStep a ≤ U64MAX →
      scanDigits (ds ++ rest) a = some (ds.foldl digitStep a, rest) := by
  induction ds with
  | nil =>
    intro a rest _ hrest _
    cases rest with
    | nil => rfl
    | cons c cs =>
      rw [List.nil_append, List.foldl_nil, scanDigits, if_neg (hrest c cs rfl)]
  | cons c ds ih =>
    intro a rest hdig hrest hle
    have hdc := hdig c (List.mem_cons_self c ds)
    rw [List.foldl_cons] at hle ⊢
    have hlow : digitStep a c ≤ ds.foldl digitStep (digitStep a c) := foldl_digits_ge ds _
    have hguard : ¬ a > (U64MAX - (c.toNat - '0'.toNat)) / 10 := by
      rw [not_lt, Nat.le_div_iff_mul_le (by omega)]
      have hds : digitStep a c = a * 10 + (c.toNat - '0'.toNat) := rfl
      omega
    rw [List.cons_append, scanDigits, if_pos hdc, if_neg hguard]
    exact ih _ _ (fun c' hc' => hdig c' (List.mem_cons_of_mem c hc')) hrest hle

lemma toInt64_of_lt {n : Nat} (h : n < 2 ^ 63) : toInt64 n = (n : Int) := by
  have hU : n % U64 = n := Nat.mod_eq_of_lt (by
    have : (2 : Nat) ^ 63 < U64 := by norm_num [U64]
    omega)
  rw [toInt64, hU, if_pos h]
  rfl

lemma parse_duration_eq_of_scan {s : List Char} {v : Nat} {rest : List Char}
    (hs : ¬ s.isEmpty = true) (hscan : scanDigits s 0 = some (v, rest)) :
    parse_duration s =
      (if rest.length = s.length then none
       else if rest.isEmpty = true then none
       else if rest = ['m', 's'] then some (toInt64 v * (DurUnit.mult .ms : Int))
       else if rest = ['s'] then some (toInt64 v * (DurUnit.mult .s : Int))
       else if rest = ['m'] then some (toInt64 v * (DurUnit.mult .m : Int))
       else if rest = ['h'] then some (toInt64 v * (DurUnit.mult .h : Int))
       else none) := by
  rw [parse_duration, if_neg hs, hscan]

end cli.util.timeutil

/-- C9 counterexample: the input `"18446744073709551615ms"` is a digit
string (value `2^64 − 1`, exactly `u64::max`, so the overflow guard
accepts it) followed by the unit `ms`; the code succeeds, but the value
narrows to `-1` in the int64 chrono rep, so the returned duration is
`-1000000` ns rather than the exact `(2^64 − 1)·10^6` ns. -/
theorem parse_duration_wrap_counterexample :
    cli.util.timeutil.parse_duration
        (['1', '8', '4', '4', '6', '7', '4', '4', '0', '7', '3', '7', '0', '9', '5', '5',
          '1', '6', '1', '5'] ++ ['m', 's']) = some (-1000000 : Int) ∧
    cli.util.timeutil.digitsVal
        ['1', '8', '4', '4', '6', '7', '4', '4', '0', '7', '3', '7', '0', '9', '5', '5',
          '1', '6', '1', '5'] = U64MAX ∧
    (U64MAX : Int) * 1000000 ≠ (-1000000 : Int) :=
  ⟨by decide, by decide, by decide⟩

/-- C9 amended: `parse_duration(str)` succeeds exactly on inputs of the
form `<unsigned decimal integer><unit>` with the unit in `{ms, s, m, h}`
and the numeric value fitting `u64` — rejecting the empty string, inputs
with no leading digits, inputs with an unknown or missing unit, and `u64`
overflow — and returns the int64 nanosecond tick count obtained by
narrowing the parsed value into the signed 64-bit chrono rep and
multiplying by the unit factor; this equals the exact nanosecond duration
whenever `value · unit_ns < 2^63` (the int64 range). -/
theorem parse_duration_spec :
    (∀ (s : List Char) (n : Int),
      cli.util.timeutil.parse_duration s = some n ↔
        ∃ (ds : List Char) (u : cli.util.timeutil.DurUnit),
          s = ds ++ u.chars ∧ ds ≠ [] ∧ (∀ c ∈ ds, '0' ≤ c ∧ c ≤ '9') ∧
            cli.util.timeutil.digitsVal ds ≤ U64MAX ∧
            n = cli.util.timeutil.toInt64 (cli.util.timeutil.digitsVal ds) * (u.mult : Int)) ∧
    (∀ (ds : List Char) (u : cli.util.timeutil.DurUnit), ds ≠ [] →
      (∀ c ∈ ds, '0' ≤ c ∧ c ≤ '9') →
      cli.util.timeutil.digitsVal ds * u.mult < 2 ^ 63 →
      cli.util.timeutil.parse_duration (ds ++ u.chars) =
        some ((cli.util.timeutil.digitsVal ds * u.mult : Nat) : Int)) := by
  open cli.util.timeutil in
  refine ⟨fun s n => ⟨?_, ?_⟩, ?_⟩
  · intro h
    rw [parse_duration] at h
    by_cases hs : s.isEmpty
    · rw [if_pos hs] at h
      cases h
    rw [if_neg hs] at h
    split at h
    · cases h
    · rename_i v rest hscan
      rcases scan_decomp s 0 v rest hscan with ⟨ds, rfl, hdig, hval⟩
      have hvle : v ≤ U64MAX := scan_le _ 0 v rest hscan (by omega)
      have hvd : v = digitsVal ds := hval
      by_cases h1 : rest.length = (ds ++ rest).length
      · rw [if_pos h1] at h
        cases h
      rw [if_neg h1] at h
      have hdsne : ds ≠ [] := by
        intro hc
        subst hc
        exact h1 rfl
      by_cases h2 : rest.isEmpty
      · rw [if_pos h2] at h
        cases h
      rw [if_neg h2] at h
      by_cases h3 : rest = ['m', 's']
      · rw [if_pos h3] at h
        injection h with h
        exact ⟨ds, .ms, by rw [h3]; rfl, hdsne, hdig, by omega, by rw [← h, hvd]⟩
      rw [if_neg h3] at h
      by_cases h4 : rest = ['s']
      · rw [if_pos h4] at h
        injection h with h
        exact ⟨ds, .s, by rw [h4]; rfl, hdsne, hdig, by omega, by rw [← h, hvd]⟩
      rw [if_neg h4] at h
      by_cases h5 : rest = ['m']
      · rw [if_pos h5] at h
        injection h with h
        exact ⟨ds, .m, by rw [h5]; rfl, hdsne, hdig, by omega, by rw [← h, hvd]⟩
      rw [if_neg h5] at h
      by_cases h6 : rest = ['h']
      · rw [if_pos h6] at h
        injection h with h
        exact ⟨ds, .h, by rw [h6]; rfl, hdsne, hdig, by omega, by rw [← h, hvd]⟩
      rw [if_neg h6] at h
      cases h
  · rintro ⟨ds, u, rfl, hne, hdig, hle, rfl⟩
    have hrest : ∀ c cs, u.chars = c :: cs → ¬('0' ≤ c ∧ c ≤ '9') := by
      cases u <;> (intro c cs hc; injection hc with hc1 hc2; subst hc1; decide)
    have hscan := scan_append ds 0 u.chars hdig hrest (by rwa [← digitsVal_eq_foldl])
    rw [← digitsVal_eq_foldl] at hscan
    have hdslen : 0 < ds.length := List.length_pos.mpr hne
    have hempty : ¬ (ds ++ u.chars).isEmpty = true := by
      rw [List.isEmpty_iff]
      intro hc
      exact hne (List.append_eq_nil.mp hc).1
    have hlen : ¬ u.chars.length = (ds ++ u.chars).length := by
      rw [List.length_append]
      omega
    rw [parse_duration_eq_of_scan hempty hscan]
    cases u
    · rw [if_neg hlen]
      rfl
    · rw [if_neg hlen]
      rfl
    · rw [if_neg hlen]
      rfl
    · rw [if_neg hlen]
      rfl
  · intro ds u hne hdig hbound
    open cli.util.timeutil in
    have hmult : 1 ≤ u.mult := by cases u <;> decide
    have hm1 : digitsVal ds * 1 ≤ digitsVal ds * u.mult := Nat.mul_le_mul_left _ hmult
    have hval : digitsVal ds < 2 ^ 63 := by omega
    have hle : digitsVal ds ≤ U64MAX := by
      have h63 : (2 : Nat) ^ 63 ≤ U64MAX := by norm_num [U64MAX, U64]
      omega
    have hrest : ∀ c cs, u.chars = c :: cs → ¬('0' ≤ c ∧ c ≤ '9') := by
      cases u <;> (intro c cs hc; injection hc with hc1 hc2; subst hc1; decide)
    have hscan := scan_append ds 0 u.chars hdig hrest (by rwa [← digitsVal_eq_foldl])
    rw [← digitsVal_eq_foldl] at hscan
    have hdslen : 0 < ds.length := List.length_pos.mpr hne
    have hempty : ¬ (ds ++ u.chars).isEmpty = true := by
      rw [List.isEmpty_iff]
      intro hc
      exact hne (List.append_eq_nil.mp hc).1
    have hlen : ¬ u.chars.length = (ds ++ u.chars).length := by
      rw [List.length_append]
      omega
    rw [parse_duration_eq_of_scan hempty hscan, toInt64_of_lt hval]
    cases u
    · rw [if_neg hlen, Nat.cast_mul]
      rfl
    · rw [if_neg hlen, Nat.cast_mul]
      rfl
    · rw [if_neg hlen, Nat.cast_mul]
      rfl
    · rw [if_neg hlen, Nat.cast_mul]
      rfl

/-- C9 witness: `"15ms"` parses to exactly `15000000` ns (the product is
far below `2^63`, so the int64 rep is exact). -/
theorem parse_duration_spec_witness :
    cli.util.timeutil.parse_duration ['1', '5', 'm', 's'] = some ((15000000 : Nat) : Int) :=
  parse_duration_spec.2 ['1', '5'] .ms (by decide) (by decide) (by decide)

/-! ## Claim C8: the hash depends on seed and thread salt only via XOR -/

/-- C8: for every byte string `B`, hash kind, seed `s` and thread salt `t`,
`hash64(B, {kind, s, t})` equals `hash64(B, {kind, s XOR t, 0})`. -/
theorem hash64_seed_xor_thread_salt (B : List Nat) (k : HashKind) (s t : Nat) :
    hashing.hash64 B ⟨k, s, t⟩ = hashing.hash64 B ⟨k, s ^^^ t, 0⟩ := by
  cases k <;> simp [hashing.hash64]

/-! ## Claim C4: merge rejects exactly parameter mismatches -/

/-- C4: for each sketch type, `merge(other)` reports `InvalidArgument` iff
the parameters differ (precision for HLL; bit count and `k` for Bloom;
depth and width for CMS; hash kind/seed/salt for all three), and succeeds
iff the parameters are identical. -/
theorem merge_invalid_argument_iff_params_differ
    (hs ho : hll.sketch) (bs bo : bloom.filter) (cs co : cms.sketch) :
    ((hll.merge hs ho).2 = some ⟨.invalid_argument, "incompatible hll merge"⟩ ↔
      (hs.p ≠ ho.p ∨ hs.hash_cfg.kind ≠ ho.hash_cfg.kind ∨
        hs.hash_cfg.seed ≠ ho.hash_cfg.seed ∨
        hs.hash_cfg.thread_salt ≠ ho.hash_cfg.thread_salt)) ∧
    ((hll.merge hs ho).2 = none ↔
      (hs.p = ho.p ∧ hs.hash_cfg.kind = ho.hash_cfg.kind ∧
        hs.hash_cfg.seed = ho.hash_cfg.seed ∧
        hs.hash_cfg.thread_salt = ho.hash_cfg.thread_salt)) ∧
    ((bloom.merge bs bo).2 = some ⟨.invalid_argument, "incompatible bloom merge"⟩ ↔
      (bs.m_bits ≠ bo.m_bits ∨ bs.k ≠ bo.k ∨ bs.hash_cfg.kind ≠ bo.hash_cfg.kind ∨
        bs.hash_cfg.seed ≠ bo.hash_cfg.seed ∨
        bs.hash_cfg.thread_salt ≠ bo.hash_cfg.thread_salt)) ∧
    ((bloom.merge bs bo).2 = none ↔
      (bs.m_bits = bo.m_bits ∧ bs.k = bo.k ∧ bs.hash_cfg.kind = bo.hash_cfg.kind ∧
        bs.hash_cfg.seed = bo.hash_cfg.seed ∧
        bs.hash_cfg.thread_salt = bo.hash_cfg.thread_salt)) ∧
    ((cms.merge cs co).2 = some ⟨.invalid_argument, "incompatible cms merge"⟩ ↔
      (cs.depth ≠ co.depth ∨ cs.width ≠ co.width ∨ cs.hash_cfg.kind ≠ co.hash_cfg.kind ∨
        cs.hash_cfg.seed ≠ co.hash_cfg.seed ∨
        cs.hash_cfg.thread_salt ≠ co.hash_cfg.thread_salt)) ∧
    ((cms.merge cs co).2 = none ↔
      (cs.depth = co.depth ∧ cs.width = co.width ∧ cs.hash_cfg.kind = co.hash_cfg.kind ∧
        cs.hash_cfg.seed = co.hash_cfg.seed ∧
        cs.hash_cfg.thread_salt = co.hash_cfg.thread_salt)) := by
  refine ⟨?_, ?_, ?_, ?_, ?_, ?_⟩
  · unfold hll.merge
    split_ifs with h <;> (simp_all [hll.same_params]; all_goals tauto)
  · unfold hll.merge
    split_ifs with h <;> simp_all [hll.same_params]
  · unfold bloom.merge
    split_ifs with h <;> (simp_all [bloom.hash_same]; all_goals tauto)
  · unfold bloom.merge
    split_ifs with h <;> (simp_all [bloom.hash_same]; all_goals tauto)
  · unfold cms.merge
    split_ifs with h <;> (simp_all [cms.same_params]; all_goals tauto)
  · unfold cms.merge
    split_ifs with h <;> simp_all [cms.same_params]

/-! ## Claim C10: a failed merge leaves the receiver unchanged -/

/-- C10: for all three sketch types, when `merge(other)` reports an error
the receiving state is returned unchanged. -/
theorem merge_error_leaves_state_unchanged
    (hs ho : hll.sketch) (bs bo : bloom.filter) (cs co : cms.sketch) :
    ((hll.merge hs ho).2.isSome → (hll.merge hs ho).1 = hs) ∧
    ((bloom.merge bs bo).2.isSome → (bloom.merge bs bo).1 = bs) ∧
    ((cms.merge cs co).2.isSome → (cms.merge cs co).1 = cs) := by
  refine ⟨?_, ?_, ?_⟩
  · unfold hll.merge
    split_ifs <;> simp
  · unfold bloom.merge
    split_ifs <;> simp
  · unfold cms.merge
    split_ifs <;> simp

/-- C10 witness: concrete mismatched pairs for all three sketch types. -/
theorem merge_error_leaves_state_unchanged_witness :
    ((hll.merge ⟨4, ⟨.wyhash, 0, 0⟩, List.replicate 16 0⟩
        ⟨5, ⟨.wyhash, 0, 0⟩, List.replicate 32 0⟩).2.isSome ∧
      (hll.merge ⟨4, ⟨.wyhash, 0, 0⟩, List.replicate 16 0⟩
        ⟨5, ⟨.wyhash, 0, 0⟩, List.replicate 32 0⟩).1 = ⟨4, ⟨.wyhash, 0, 0⟩, List.replicate 16 0⟩) ∧
    ((bloom.merge ⟨[0], 64, 7, ⟨.wyhash, 0, 0⟩⟩ ⟨[0, 0], 128, 7, ⟨.wyhash, 0, 0⟩⟩).2.isSome ∧
      (bloom.merge ⟨[0], 64, 7, ⟨.wyhash, 0, 0⟩⟩ ⟨[0, 0], 128, 7, ⟨.wyhash, 0, 0⟩⟩).1 =
        ⟨[0], 64, 7, ⟨.wyhash, 0, 0⟩⟩) ∧
    ((cms.merge ⟨1, 3, ⟨.wyhash, 0, 0⟩, List.replicate 3 0⟩
        ⟨2, 3, ⟨.wyhash, 0, 0⟩, List.replicate 6 0⟩).2.isSome ∧
      (cms.merge ⟨1, 3, ⟨.wyhash, 0, 0⟩, List.replicate 3 0⟩
        ⟨2, 3, ⟨.wyhash, 0, 0⟩, List.replicate 6 0⟩).1 =
        ⟨1, 3, ⟨.wyhash, 0, 0⟩, List.replicate 3 0⟩) :=
  ⟨⟨by decide,
      (merge_error_leaves_state_unchanged _ _ ⟨[0], 64, 7, ⟨.wyhash, 0, 0⟩⟩
          ⟨[0, 0], 128, 7, ⟨.wyhash, 0, 0⟩⟩ ⟨1, 3, ⟨.wyhash, 0, 0⟩, List.replicate 3 0⟩
          ⟨2, 3, ⟨.wyhash, 0, 0⟩, List.replicate 6 0⟩).1 (by decide)⟩,
    ⟨by decide,
      (merge_error_leaves_state_unchanged ⟨4, ⟨.wyhash, 0, 0⟩, List.replicate 16 0⟩
          ⟨5, ⟨.wyhash, 0, 0⟩, List.replicate 32 0⟩ _ _ ⟨1, 3, ⟨.wyhash, 0, 0⟩, List.replicate 3 0⟩
          ⟨2, 3, ⟨.wyhash, 0, 0⟩, List.replicate 6 0⟩).2.1 (by decide)⟩,
    ⟨by decide,
      (merge_error_leaves_state_unchanged ⟨4, ⟨.wyhash, 0, 0⟩, List.replicate 16 0⟩
          ⟨5, ⟨.wyhash, 0, 0⟩, List.replicate 32 0⟩ ⟨[0], 64, 7, ⟨.wyhash, 0, 0⟩⟩
          ⟨[0, 0], 128, 7, ⟨.wyhash, 0, 0⟩⟩ _ _).2.2 (by decide)⟩⟩

/-! ## Claim C6: the `by_memory` Bloom constructor -/

/-- C6 counterexample: at `bytes = 12` (nonzero but not a multiple of 8)
the constructor succeeds — though the claim says misaligned memory fails —
and the resulting bit count is `64`, not `8·12 = 96`. -/
theorem make_by_mem_twelve_counterexample :
    bloom.make_by_mem 12 ⟨.wyhash, 0, 0⟩ =
      .ok ⟨List.replicate 1 0, 64, 7, ⟨.wyhash, 0, 0⟩⟩ ∧
    (64 : Nat) ≠ 8 * 12 ∧ (12 : Nat) % 8 ≠ 0 ∧ (12 : Nat) ≠ 0 := by
  refine ⟨rfl, by decide, by decide, by decide⟩

/-- C6 amended: `by_memory(bytes)` fails with `InvalidArgument` exactly
when `bytes < 8`; otherwise it produces a filter with
`m = 64·⌊bytes/8⌋` bits (i.e. `8·bytes` only when `bytes` is a multiple
of 8) and the fixed default `k = 7`. -/
theorem make_by_mem_spec (bytes : Nat) (h : HashConfig) :
    (bytes < 8 → bloom.make_by_mem bytes h = .error ⟨.invalid_argument, "mem too small"⟩) ∧
    (8 ≤ bytes →
      bloom.make_by_mem bytes h =
        .ok ⟨List.replicate (bytes / 8) 0, bytes / 8 * 64, bloom.kDefaultK, h⟩) := by
  constructor
  · intro hb
    simp [bloom.make_by_mem, bloom.kMinBytes, hb]
  · intro hb
    have h8 : ¬ bytes < 8 := by omega
    have hw : ¬ bytes / 8 = 0 := by omega
    simp [bloom.make_by_mem, bloom.kMinBytes, h8, hw]

/-- C6 witness: the amended spec applied at `bytes = 4` and `bytes = 16`. -/
theorem make_by_mem_spec_witness :
    bloom.make_by_mem 4 ⟨.wyhash, 0, 0⟩ = .error ⟨.invalid_argument, "mem too small"⟩ ∧
    bloom.make_by_mem 16 ⟨.wyhash, 0, 0⟩ =
      .ok ⟨List.replicate 2 0, 128, bloom.kDefaultK, ⟨.wyhash, 0, 0⟩⟩ :=
  ⟨(make_by_mem_spec 4 ⟨.wyhash, 0, 0⟩).1 (by decide),
    (make_by_mem_spec 16 ⟨.wyhash, 0, 0⟩).2 (by decide)⟩

end probkit
